import Mathlib

/-!
Verification development for the Heimdal relational virtual filesystem
(RVFS) engine.  The Go source keeps a project's directory/file tree as rows
of a SQLite database and manipulates it through the `sqlite3` command line
tool; every definition below is a shallow embedding of one Go function or of
the semantics of one SQL statement that function emits.

Modelling conventions:

* Strings are modelled as `List Char` (`Str`), with the used functions of
  Go's `strings` package re-implemented on lists.  Go's Unicode-aware space
  trimming is modelled on the ASCII whitespace characters.
* The database state (`DB`) carries the `files`, `file_lines` and
  `file_tags` tables.  A single project row is in scope — every command of
  the source resolves the same project id through `ensureProjectRow` /
  `currentProjectID` — so the project id and the `projects` table are left
  implicit.  Row ids of `file_lines` and `file_tags` are never consulted by
  the source and are omitted; `files.id` is modelled because moves update
  rows by id and line/tag rows reference it.  The `created_at` timestamp
  columns are never read back and are omitted.
* Each call of `runSQLiteExec` / `runSQLiteQuery` spawns a separate
  `sqlite3` process and therefore runs in its own implicit transaction.
  Statements that can hit a `UNIQUE` constraint (`UPDATE files SET path=..`
  during a move, and the `INSERT INTO file_lines .. lineno 1` for initial
  content) are modelled with an explicit error result; the remaining
  emitted statements (`INSERT OR IGNORE`, `DELETE`, unconstrained
  `UPDATE`s, `SELECT`s) cannot fail at the SQL level, and the
  environment-plumbing failures (missing `HEIMDAL_PROJECT_DB`, missing
  `sqlite3` binary) are outside the modelled state.
* SQL `LIKE` is modelled with SQLite's default semantics: `%` and `_` act
  as wildcards and ASCII letters are compared case-insensitively, while `=`
  on paths is byte equality.  `escapeSQL` only doubles single quotes, which
  round-trips through the quoted literals, so quoting is not modelled.
* The argv-level help-token guard of each top-level command (a first
  argument `-h`, `--help` or `help` prints usage and runs nothing) sits at
  the CLI boundary and is outside the embedding of the outer commands,
  whose modelled inputs are the already-extracted path, metadata and flag
  values.  The one internal re-entry, `cmdFSMakeDir([]string{dir})` inside
  `cmdFSNewFile`, does execute that guard and is modelled by
  `mkDirArgOne`: a parent path equal to a help token creates nothing.
-/

namespace Heimdal

/-- Strings of the Go source, modelled as lists of characters. -/
abbrev Str := List Char

/-- Conversion from Lean string literals, used to state concrete facts. -/
def str (s : String) : Str := s.toList

/-- Go `strings.Trim(s, cutset)` for a one-character cutset: remove leading
and trailing occurrences of `c`. -/
def trimC (c : Char) (s : Str) : Str :=
  ((s.dropWhile (fun a => a == c)).reverse.dropWhile (fun a => a == c)).reverse

/-- Go `strings.Split(s, sep)` for a one-character separator. -/
def splitC (c : Char) : Str → List Str
  | [] => [[]]
  | a :: rest =>
    if a == c then [] :: splitC c rest
    else
      match splitC c rest with
      | [] => [[a]]
      | g :: gs => (a :: g) :: gs

/-- Go `strings.HasPrefix pre s` (the leading-copy test). -/
def startsW : Str → Str → Bool
  | [], _ => true
  | _ :: _, [] => false
  | p :: ps, a :: rest => p == a && startsW ps rest

/-- Go `strings.TrimPrefix`: drop `pre` when it is a leading copy, else the
string unchanged. -/
def dropPre (pre s : Str) : Str :=
  if startsW pre s then s.drop pre.length else s

/-- ASCII whitespace, covering the characters Go `strings.TrimSpace` strips
in the modelled code paths. -/
def isSp (c : Char) : Bool :=
  c == ' ' || c == '\t' || c == '\n' || c == '\r'

/-- Go `strings.TrimSpace` (ASCII fragment). -/
def trimSp (s : Str) : Str :=
  ((s.dropWhile isSp).reverse.dropWhile isSp).reverse

/-- Go `strings.LastIndex(s, "::")`: start of the last occurrence of two
consecutive colons. -/
def lastColon2 : Str → Option Nat
  | [] => none
  | c :: rest =>
    match lastColon2 rest with
    | some i => some (i + 1)
    | none => if c == ':' && startsW [':'] rest then some 0 else none

/-- Go `parseMeta`: extract `(tags, note, aicom)` from a raw metadata
string.  Only a marker at the start of the space-trimmed string is
recognized; the `for` loop of the source breaks in every branch, so it runs
its body at most once. -/
def parseMeta (s0 : Str) : List Str × Str × Str :=
  let s := trimSp s0
  if s = [] then ([], [], [])
  else if startsW (str "//") s then
    ([], trimSp (dropPre (str "//") s), [])
  else if startsW (str "@@") s then
    let t := trimSp (dropPre (str "@@") s)
    (((splitC ',' t).map trimSp).filter (fun p => p != []), [], [])
  else if startsW (str "::") s then
    let body := dropPre (str "::") s
    let body :=
      match lastColon2 body with
      | some i => body.take i
      | none => body
    ([], [], trimSp body)
  else ([], [], [])

/-- ASCII lower-casing, the folding SQLite's default `LIKE` applies. -/
def foldC (c : Char) : Char :=
  if 'A' ≤ c && c ≤ 'Z' then Char.ofNat (c.toNat + 32) else c

/-- Fuel-indexed evaluator of SQLite's default `LIKE`: `%` matches any
sequence, `_` any one character, and other characters match up to ASCII
case folding.  Every recursive call shrinks `pattern.length + s.length`, so
the fuel the wrapper `likeM` supplies is never exhausted; the fuel argument
only makes the recursion structural. -/
def likeFuel : Nat → Str → Str → Bool
  | 0, _, _ => false
  | _ + 1, [], s => s == []
  | f + 1, c :: ps, [] => if c = '%' then likeFuel f ps [] else false
  | f + 1, c :: ps, d :: cs =>
    if c = '%' then likeFuel f ps (d :: cs) || likeFuel f (c :: ps) cs
    else if c = '_' then likeFuel f ps cs
    else foldC c == foldC d && likeFuel f ps cs

/-- SQLite default `LIKE` predicate: does `s` match pattern `ps`. -/
def likeM (ps s : Str) : Bool := likeFuel (ps.length + s.length + 1) ps s

/-- Index of the last occurrence of character `c` (Go `strings.LastIndex`
for a one-character needle, used by `filepath.Base` / `filepath.Dir`). -/
def lastIdxC (c : Char) : Str → Option Nat
  | [] => none
  | a :: rest =>
    match lastIdxC c rest with
    | some i => some (i + 1)
    | none => if a == c then some 0 else none

/-- Join path segments with a slash. -/
def joinSlash : List Str → Str
  | [] => []
  | [s] => s
  | s :: rest => s ++ '/' :: joinSlash rest

/-- Go `path/filepath.Clean` for slash-separated paths, in its equivalent
segment formulation: drop empty and dot segments, let a dot-dot segment
cancel the previous kept segment (kept literally at the front of a relative
path, dropped at the root of an absolute one), and rebuild. -/
def cleanP (p : Str) : Str :=
  let rooted := startsW (str "/") p
  let segs := (splitC '/' p).filter (fun s => s != [])
  let out := segs.foldl (fun acc s =>
      if s = str "." then acc
      else if s = str ".." then
        match acc with
        | [] => if rooted then [] else [s]
        | a :: rest => if a = str ".." then s :: a :: rest else rest
      else s :: acc) []
  let core := joinSlash out.reverse
  if rooted then '/' :: core
  else if core = [] then str "." else core

/-- Go `filepath.Base`. -/
def goBase (p : Str) : Str :=
  if p = [] then str "."
  else
    let q := (p.reverse.dropWhile (fun a => a == '/')).reverse
    let r :=
      match lastIdxC '/' q with
      | some i => q.drop (i + 1)
      | none => q
    if r = [] then str "/" else r

/-- Go `filepath.Dir`: `Clean` of everything up to and including the last
slash, the cleaning of the empty string (that is, a dot) when there is
none. -/
def goDir (p : Str) : Str :=
  match lastIdxC '/' p with
  | some i => cleanP (p.take (i + 1))
  | none => cleanP []

/-- Kind column of a `files` row: the source only ever writes the strings
`dir` and `file`. -/
inductive EKind
  | dir
  | file
  deriving DecidableEq, Repr

/-- Row of the `files` table (one namespace entry). -/
structure Entry where
  id : Nat
  path : Str
  name : Str
  kind : EKind
  note : Option Str
  aicom : Option Str
  deriving DecidableEq, Repr

/-- Row of the `file_lines` table. -/
structure LineRow where
  fileId : Nat
  lineno : Nat
  content : Str
  side : Option Str
  aicom : Option Str
  deriving DecidableEq, Repr

/-- Row of the `file_tags` table. -/
structure TagRow where
  fileId : Nat
  tag : Str
  deriving DecidableEq, Repr

/-- Database state: the three entry-owning tables plus the next rowid of
`files`. -/
structure DB where
  entries : List Entry
  lines : List LineRow
  tags : List TagRow
  nextId : Nat
  deriving DecidableEq, Repr

/-- Freshly initialized project database: schema created, no entries. -/
def dbEmpty : DB := ⟨[], [], [], 1⟩

/-- Error outcomes the modelled commands can surface: `notFound` is the
`not found: ..` message of `rm` and `mv`, `isDirErr` the `is a directory;
use -r` message, `fileNotFound` the `file not found in DB: ..` message of
`getFileID`, and `sqlConstraint` a nonzero `sqlite3` exit caused by a
`UNIQUE` constraint violation. -/
inductive Err
  | notFound
  | isDirErr
  | fileNotFound
  | sqlConstraint
  deriving DecidableEq, Repr

/-- Result row of `SELECT .. FROM files WHERE project_id=pid AND
path='p'`; the `UNIQUE(project_id, path)` constraint makes it unique. -/
def findEnt (p : Str) (db : DB) : Option Entry :=
  db.entries.find? (fun e => decide (e.path = p))

/-- Semantics of `INSERT OR IGNORE INTO files(project_id, path, name, type,
..)`: ignored when a row with the same path exists, otherwise the row is
appended with the next rowid. -/
def insIgnoreEntry (p n : Str) (k : EKind) (note aicom : Option Str) (db : DB) : DB :=
  if (findEnt p db).isSome then db
  else
    { db with
      entries := db.entries ++ [⟨db.nextId, p, n, k, note, aicom⟩],
      nextId := db.nextId + 1 }

/-- Semantics of the metadata update of `upsertDir`:
`UPDATE files SET note=COALESCE(note,'')||note1,
aicom=COALESCE(aicom,'')||nl+aicom1 WHERE .. path=..` — note the newline the
source prepends to the appended control text. -/
def updMeta (p : Str) (note aicom : Str) (db : DB) : DB :=
  { db with
    entries := db.entries.map (fun e =>
      if e.path = p then
        { e with
          note := some ((e.note.getD []) ++ note),
          aicom := some ((e.aicom.getD []) ++ '\n' :: aicom) }
      else e) }

/-- Semantics of `INSERT INTO file_tags(file_id, tag) SELECT id, 't' FROM
files WHERE .. path='p'`: one tag row per matching entry (at most one by
path uniqueness), nothing when the path is absent. -/
def attachTag (p t : Str) (db : DB) : DB :=
  match findEnt p db with
  | some e => { db with tags := db.tags ++ [⟨e.id, t⟩] }
  | none => db

/-- Go `upsertDir`: one `INSERT OR IGNORE`, then — only with `applyMeta` —
the metadata `UPDATE` (when note or control text is present) and the
per-tag `INSERT .. SELECT` statements. -/
def upsertDir (path name : Str) (applyMeta : Bool) (tags : List Str)
    (note aicom : Str) (db : DB) : DB :=
  let p := trimC '/' path
  let db1 := insIgnoreEntry p name EKind.dir none none db
  if applyMeta then
    let db2 := if note ≠ [] ∨ aicom ≠ [] then updMeta p note aicom db1 else db1
    if tags ≠ [] then tags.foldl (fun d t => attachTag p t d) db2 else db2
  else db1

/-- Accumulation step of the component walk of `cmdFSMakeDir`: the
source's `if cur == "" { cur = c } else { cur = cur + "/" + c }`. -/
def joinStep (cur c : Str) : Str := if cur = [] then c else cur ++ '/' :: c

/-- Component walk of Go `cmdFSMakeDir`: skip empty components, build the
accumulated path and upsert each component as a directory; metadata is
applied only for the physically last component (`i == len(comps)-1` in the
source, equivalently an empty remainder list). -/
def mkdirLoop (tags : List Str) (note aicom : Str) : List Str → Str → DB → DB
  | [], _, db => db
  | c :: rest, cur, db =>
    if c = [] then mkdirLoop tags note aicom rest cur db
    else
      mkdirLoop tags note aicom rest (joinStep cur c)
        (upsertDir (joinStep cur c) c (decide (rest = [])) tags note aicom db)

/-- Go `cmdFSMakeDir` on a path and the (already joined) trailing metadata
string.  The project-id plumbing always resolves the single modelled
project and none of the emitted statements can fail, so the command prints
`ok` and has no error result. -/
def cmdFSMakeDir (path meta : Str) (db : DB) : DB :=
  let m := parseMeta meta
  mkdirLoop m.1 m.2.1 m.2.2 (splitC '/' (trimC '/' path)) [] db

/-- Go `upsertFile`: `INSERT OR IGNORE` of the file row (the parsed note
and control text are inlined into the insert), per-tag inserts, then — for
nonempty content — `INSERT INTO file_lines .. SELECT id, 1, content`, which
hits `UNIQUE(file_id, lineno)` when the entry at the path already has a
line 1 and inserts nothing when the path is absent. -/
def upsertFile (path name : Str) (tags : List Str) (note aicom content : Str)
    (db : DB) : Option Err × DB :=
  let p := trimC '/' path
  let db1 := insIgnoreEntry p name EKind.file (some note) (some aicom) db
  let db2 := tags.foldl (fun d t => attachTag p t d) db1
  if content ≠ [] then
    match findEnt p db2 with
    | some e =>
      if db2.lines.any (fun l => decide (l.fileId = e.id ∧ l.lineno = 1)) then
        (some Err.sqlConstraint, db2)
      else
        (none, { db2 with lines := db2.lines ++ [⟨e.id, 1, content, none, none⟩] })
    | none => (none, db2)
  else (none, db2)

/-- The source's internal re-entry `cmdFSMakeDir([]string{dir})`: the
called command first runs its own argument guard, so when `dir` is one of
the help tokens `-h`, `--help`, `help` it prints usage and creates
nothing; otherwise the directory walk runs with empty metadata. -/
def mkDirArgOne (dir : Str) (db : DB) : DB :=
  if dir = str "-h" ∨ dir = str "--help" ∨ dir = str "help" then db
  else cmdFSMakeDir dir [] db

/-- Go `cmdFSNewFile`, with the `--content` flag value already separated
from the path and metadata arguments.  The parent chain is created through
the guarded re-entry `cmdFSMakeDir([]string{filepath.Dir(path)})` (the
source ignores its result). -/
def cmdFSNewFile (path meta content : Str) (db : DB) : Option Err × DB :=
  let m := parseMeta meta
  let d := goDir path
  let db1 := if d ≠ str "." ∧ d ≠ [] then mkDirArgOne d db else db
  upsertFile path (goBase path) m.1 m.2.1 m.2.2 content db1

/-- Go `getFileID`: the shared lookup of the line-oriented commands,
restricted to rows with `type='file'`. -/
def getFileID (p : Str) (db : DB) : Except Err Nat :=
  match db.entries.find? (fun e => decide (e.path = p ∧ e.kind = EKind.file)) with
  | some e => Except.ok e.id
  | none => Except.error Err.fileNotFound

/-- SQL `MAX(lineno)` over one file's rows; with the `COALESCE(..+1, 1)` of
the source, the successor of this value (base `0` for an empty file) is the
inserted line number. -/
def maxLn (fid : Nat) (ls : List LineRow) : Nat :=
  (ls.filter (fun l => decide (l.fileId = fid))).foldl (fun m l => max m l.lineno) 0

/-- Go `cmdFSAppend`, with the `--text` flag value separated; an empty text
makes the command print usage and do nothing. -/
def cmdFSAppend (path text : Str) (db : DB) : Option Err × DB :=
  if text = [] then (none, db)
  else
    let p := trimC '/' path
    match getFileID p db with
    | Except.error e => (some e, db)
    | Except.ok fid =>
      (none, { db with lines := db.lines ++ [⟨fid, maxLn fid db.lines + 1, text, none, none⟩] })

/-- Go `cmdFSAnnotate`.  The source requires both a metadata argument and a
`--line` number and otherwise prints usage and does nothing; parsed tags
always go to `file_tags` (the entry level), while the note/control update
targets only the addressed line, which is first created empty through
`INSERT OR IGNORE INTO file_lines`. -/
def cmdFSAnnotate (path : Str) (line : Option Nat) (meta : Str) (db : DB) :
    Option Err × DB :=
  if meta = [] then (none, db)
  else
    match line with
    | none => (none, db)
    | some n =>
      let m := parseMeta meta
      let p := trimC '/' path
      match getFileID p db with
      | Except.error e => (some e, db)
      | Except.ok fid =>
        let db1 :=
          if db.lines.any (fun l => decide (l.fileId = fid ∧ l.lineno = n)) then db
          else { db with lines := db.lines ++ [⟨fid, n, [], none, none⟩] }
        let db2 :=
          if m.2.1 ≠ [] ∨ m.2.2 ≠ [] then
            { db1 with
              lines := db1.lines.map (fun l =>
                if l.fileId = fid ∧ l.lineno = n then
                  { l with
                    side := if m.2.1 ≠ [] then some m.2.1 else l.side,
                    aicom := if m.2.2 ≠ [] then some m.2.2 else l.aicom }
                else l) }
          else db1
        (none, { db2 with tags := db2.tags ++ m.1.map (fun t => ⟨fid, t⟩) })

/-- Subtree predicate the source embeds into its SQL:
`path='t' OR path LIKE 't/%'`. -/
def subMatch (t p : Str) : Bool :=
  decide (p = t) || likeM (t ++ str "/%") p

/-- Go `deleteFileAndData`: three `DELETE`s keyed on the exact path (lines,
tags, then the entry; the subqueries of the first two see the entry row
because it is deleted last). -/
def deleteFileAndData (p : Str) (db : DB) : DB :=
  let ids := (db.entries.filter (fun e => decide (e.path = p))).map Entry.id
  { db with
    lines := db.lines.filter (fun l => decide (l.fileId ∉ ids)),
    tags := db.tags.filter (fun t => decide (t.fileId ∉ ids)),
    entries := db.entries.filter (fun e => decide (e.path ≠ p)) }

/-- Go `cmdFSRemove`.  The kind check runs before any delete statement, so
the non-recursive failure on a directory leaves the database untouched; the
recursive branch issues three subtree `DELETE`s (lines, tags, entries) over
the `subMatch` predicate. -/
def cmdFSRemove (recursive : Bool) (path : Str) (db : DB) : Option Err × DB :=
  let p := trimC '/' path
  match findEnt p db with
  | none => (some Err.notFound, db)
  | some e =>
    if e.kind = EKind.dir ∧ recursive = false then (some Err.isDirErr, db)
    else if e.kind = EKind.file then (none, deleteFileAndData p db)
    else
      let ids := (db.entries.filter (fun x => subMatch p x.path)).map Entry.id
      (none,
        { db with
          lines := db.lines.filter (fun l => decide (l.fileId ∉ ids)),
          tags := db.tags.filter (fun t => decide (t.fileId ∉ ids)),
          entries := db.entries.filter (fun x => !(subMatch p x.path)) })

/-- Destination path Go `cmdFSMove` computes for one matched row: the
destination itself for the source path, otherwise the destination plus the
slash-stripped remainder obtained with `strings.TrimPrefix`. -/
def mvNew (src dst oldp : Str) : Str :=
  if oldp = src then dst
  else
    let tail := dropPre src oldp
    let tail2 := if startsW (str "/") tail then tail.drop 1 else tail
    if tail2 = [] then dst else dst ++ '/' :: tail2

/-- Insertion step of the `ORDER BY LENGTH(path)` sort. -/
def insByLen (x : Nat × Str) : List (Nat × Str) → List (Nat × Str)
  | [] => [x]
  | y :: ys => if x.2.length ≤ y.2.length then x :: y :: ys else y :: insByLen x ys

/-- Sort by path length, modelling `ORDER BY LENGTH(path)`; SQLite leaves
the relative order of equal lengths unspecified and a fixed one is chosen
here. -/
def sortLen (l : List (Nat × Str)) : List (Nat × Str) := l.foldr insByLen []

/-- Loop body of the directory branch of Go `cmdFSMove`: one `UPDATE files
SET path=.., name=.. WHERE id=..` per snapshot row, each statement running
in its own `sqlite3` process; the first `UNIQUE(project_id, path)`
violation aborts the loop with all earlier updates already committed. -/
def moveLoop (src dst : Str) : List (Nat × Str) → DB → Option Err × DB
  | [], db => (none, db)
  | (i, oldp) :: rest, db =>
    let newp := mvNew src dst oldp
    if db.entries.any (fun x => decide (x.path = newp ∧ x.id ≠ i)) then
      (some Err.sqlConstraint, db)
    else
      moveLoop src dst rest
        { db with
          entries := db.entries.map (fun x =>
            if x.id = i then { x with path := newp, name := goBase newp } else x) }

/-- Go `cmdFSMove`: a single path/name `UPDATE` for a file-kind source, the
snapshotted per-row update loop for a directory-kind source. -/
def cmdFSMove (src0 dst0 : Str) (db : DB) : Option Err × DB :=
  let src := trimC '/' src0
  let dst := trimC '/' dst0
  match findEnt src db with
  | none => (some Err.notFound, db)
  | some e =>
    if e.kind = EKind.file then
      let newName := goBase dst
      if db.entries.any (fun x => decide (x.path = dst ∧ x.path ≠ src)) then
        (some Err.sqlConstraint, db)
      else
        (none,
          { db with
            entries := db.entries.map (fun x =>
              if x.path = src then { x with path := dst, name := newName } else x) })
    else
      let snap := sortLen ((db.entries.filter (fun x => subMatch src x.path)).map
        (fun x => (x.id, x.path)))
      moveLoop src dst snap db

/-- Insertion step of the ascending `ORDER BY lineno` sort. -/
def insLn (x : LineRow) : List LineRow → List LineRow
  | [] => [x]
  | y :: ys => if x.lineno ≤ y.lineno then x :: y :: ys else y :: insLn x ys

/-- Ascending sort by line number; `UNIQUE(file_id, lineno)` makes ties
within one file impossible. -/
def sortLines (ls : List LineRow) : List LineRow := ls.foldr insLn []

/-- Go `cmdFSCat`: the contents of the file's lines in ascending line
order. -/
def cmdFSCat (path : Str) (db : DB) : Except Err (List Str) :=
  let p := trimC '/' path
  match getFileID p db with
  | Except.error e => Except.error e
  | Except.ok fid =>
    Except.ok ((sortLines (db.lines.filter (fun l => decide (l.fileId = fid)))).map
      LineRow.content)

/-! Definitions supporting the claim statements. -/

/-- Specification-side reading of the annotation grammar (§4.1 / C7): at
most one of three markers is recognized on the trimmed string, checked in
priority order — a side-note marker taking the trimmed rest, a tag-list
marker taking the comma-separated labels (trimmed, empties dropped), and a
control-channel marker taking the text between the opening marker and a
matching closing occurrence, or the rest of the string when none closes. -/
def parseMetaSpec (s0 : Str) : List Str × Str × Str :=
  match trimSp s0 with
  | '/' :: '/' :: rest => ([], trimSp rest, [])
  | '@' :: '@' :: rest =>
    (((splitC ',' (trimSp rest)).map trimSp).filter (fun p => p != []), [], [])
  | ':' :: ':' :: rest =>
    ([], [],
      trimSp (match lastColon2 rest with
              | some i => rest.take i
              | none => rest))
  | _ => ([], [], [])

/-- Paths the component walk of `cmdFSMakeDir` upserts, in order: the
accumulated joins of the nonempty components. -/
def accPaths (cur : Str) : List Str → List Str
  | [] => []
  | c :: rest =>
    if c = [] then accPaths cur rest
    else joinStep cur c :: accPaths (joinStep cur c) rest

/-- Paths a metadata-free `cmdFSMakeDir path` call upserts. -/
def mkdirPaths (path : Str) : List Str :=
  accPaths [] (splitC '/' (trimC '/' path))

/-- Proposition that `r` is a strict slash-prefix of the stored path `q`
(the claims call `r` a strict path-prefix of `q`). -/
def splitsAt (r q : Str) : Prop := ∃ t, q = r ++ '/' :: t

/-- Text whose characters are inert for SQLite `LIKE`: no wildcard and no
upper-case ASCII letter, so that matching degenerates to literal
comparison. -/
def likeSafe (s : Str) : Prop :=
  ∀ c ∈ s, c ≠ '%' ∧ c ≠ '_' ∧ ('A' ≤ c && c ≤ 'Z') = false

instance (s : Str) : Decidable (likeSafe s) := by
  unfold likeSafe; infer_instance

/-- Strings without a leading or trailing slash (for which `trimC` is the
identity). -/
def edgeOK (s : Str) : Prop :=
  (∀ a, s.head? = some a → a ≠ '/') ∧ (∀ a, s.getLast? = some a → a ≠ '/')

/-- Nonempty path segment without separators or dot/dot-dot, the segments
of an already normalized relative path. -/
def cleanSeg (c : Str) : Prop :=
  c ≠ [] ∧ '/' ∉ c ∧ c ≠ str "." ∧ c ≠ str ".."

instance (c : Str) : Decidable (cleanSeg c) := by
  unfold cleanSeg; infer_instance

/-- Kind of the entry stored at a path, when present. -/
def kindAt (p : Str) (db : DB) : Option EKind := (findEnt p db).map Entry.kind

/-- Reachable state used against C1: directory `a` with file `a/x`, plus a
stray file `b/x` whose parent directory `b` does not exist (created by a
file-level move, which adds no destination ancestors). -/
def exC1db : DB :=
  let d1 := cmdFSMakeDir (str "a") [] dbEmpty
  let d2 := (cmdFSNewFile (str "a/x") [] [] d1).2
  let d3 := (cmdFSNewFile (str "c/x") [] [] d2).2
  (cmdFSMove (str "c/x") (str "b/x") d3).2

/-- Reachable state used against C9: directories `a_b` and `axb` with one
file each. -/
def exC9db : DB :=
  let d1 := cmdFSMakeDir (str "a_b") [] dbEmpty
  let d2 := (cmdFSNewFile (str "a_b/c") [] [] d1).2
  let d3 := cmdFSMakeDir (str "axb") [] d2
  (cmdFSNewFile (str "axb/d") [] [] d3).2

/-- Reachable state used for C1's success case: directory tree `a`, `a/y`,
`a/y/z` plus file `a/x` with one content line. -/
def exC1mv : DB :=
  (cmdFSNewFile (str "a/x") [] (str "c") (cmdFSMakeDir (str "a/y/z") [] dbEmpty)).2

/-! Counterexample theorems.  Each evaluates the modelled commands on an
explicit concrete state and refutes one claim as stated. -/

/-- C1, counterexample to the atomicity clause: in the reachable state
`exC1db` (directory `a` with file `a/x`, stray file `b/x` without a parent
entry `b`), `move("a","b")` first renames `a` to `b` and then fails on the
`UNIQUE(project_id, path)` collision of `a/x` with the existing `b/x`;
after the failure the entry `a` does not retain its original path — the
partially renamed tree is observable. -/
theorem C1_move_not_atomic_cex :
    (cmdFSMove (str "a") (str "b") exC1db).1 = some Err.sqlConstraint ∧
    (findEnt (str "b") (cmdFSMove (str "a") (str "b") exC1db).2).isSome = true ∧
    (findEnt (str "a/x") (cmdFSMove (str "a") (str "b") exC1db).2).isSome = true ∧
    findEnt (str "a") (cmdFSMove (str "a") (str "b") exC1db).2 = none := by
  decide

/-- C2, counterexample: `new_file("a")` after `make_directory("a")` does
not fail at all (the `INSERT OR IGNORE` swallows the conflict and the
command reports success, leaving the store unchanged), and
`make_directory("b")` after `new_file("b")` likewise succeeds as a no-op
with the entry still file-kind; no `TypeConflict` error exists in the
code. -/
theorem C2_no_typeconflict_cex :
    (cmdFSNewFile (str "a") [] [] (cmdFSMakeDir (str "a") [] dbEmpty)).1 = none ∧
    (cmdFSNewFile (str "a") [] [] (cmdFSMakeDir (str "a") [] dbEmpty)).2 =
      cmdFSMakeDir (str "a") [] dbEmpty ∧
    cmdFSMakeDir (str "b") [] (cmdFSNewFile (str "b") [] [] dbEmpty).2 =
      (cmdFSNewFile (str "b") [] [] dbEmpty).2 ∧
    kindAt (str "b") (cmdFSMakeDir (str "b") [] (cmdFSNewFile (str "b") [] [] dbEmpty).2) =
      some EKind.file := by
  decide

/-- C3, counterexample: `make_directory("./a")` stores the literal entries
`.` and `./a` (no entry `a`), and `make_directory("a/../b")` stores the
literal `a/..` (no entry `b`): dot segments are not removed and dot-dot
segments are not resolved by any path-addressed operation. -/
theorem C3_normalization_cex :
    (findEnt (str "./a") (cmdFSMakeDir (str "./a") [] dbEmpty)).isSome = true ∧
    findEnt (str "a") (cmdFSMakeDir (str "./a") [] dbEmpty) = none ∧
    (findEnt (str "a/..") (cmdFSMakeDir (str "a/../b") [] dbEmpty)).isSome = true ∧
    findEnt (str "b") (cmdFSMakeDir (str "a/../b") [] dbEmpty) = none := by
  decide

/-- C5, counterexample: after `new_file("a")` followed by
`make_directory("a/b")` the created path `a/b` has its strict prefix `a`
stored as a file-kind entry, not a directory; after `new_file("help/x")`
the created path `help/x` has no stored prefix `help` at all (the internal
`cmdFSMakeDir([]string{"help"})` call hits that command's help-token guard
and creates nothing); and after `make_directory("a")` followed by
`move("a","x/y")` the surviving entry `x/y` has no stored prefix `x` — the
ancestor invariant neither forces directory kind, nor covers help-token
parents, nor survives arbitrary operation sequences. -/
theorem C5_ancestor_cex :
    (kindAt (str "a")
        (cmdFSMakeDir (str "a/b") [] (cmdFSNewFile (str "a") [] [] dbEmpty).2) =
      some EKind.file ∧
     (findEnt (str "a/b")
        (cmdFSMakeDir (str "a/b") [] (cmdFSNewFile (str "a") [] [] dbEmpty).2)).isSome = true) ∧
    (findEnt (str "help") (cmdFSNewFile (str "help/x") [] [] dbEmpty).2 = none ∧
     (findEnt (str "help/x")
        (cmdFSNewFile (str "help/x") [] [] dbEmpty).2).isSome = true) ∧
    (findEnt (str "x")
        (cmdFSMove (str "a") (str "x/y") (cmdFSMakeDir (str "a") [] dbEmpty)).2 = none ∧
     (findEnt (str "x/y")
        (cmdFSMove (str "a") (str "x/y") (cmdFSMakeDir (str "a") [] dbEmpty)).2).isSome = true) := by
  decide

/-- C8, counterexample: with the line number omitted, `annotate` prints
usage and changes nothing — it does not set the file-level note, which
still holds the creation-time text afterwards. -/
theorem C8_annotate_no_line_cex :
    (cmdFSAnnotate (str "f") none (str "// new")
        (cmdFSNewFile (str "f") (str "// old") (str "x") dbEmpty).2).1 = none ∧
    (cmdFSAnnotate (str "f") none (str "// new")
        (cmdFSNewFile (str "f") (str "// old") (str "x") dbEmpty).2).2 =
      (cmdFSNewFile (str "f") (str "// old") (str "x") dbEmpty).2 ∧
    (findEnt (str "f") (cmdFSNewFile (str "f") (str "// old") (str "x") dbEmpty).2).map
        Entry.note = some (some (str "old")) := by
  decide

/-- C9, counterexample: `remove("a_b", recursive=true)` on `exC9db` also
deletes `axb/d`, whose path neither equals `a_b` nor starts with `a_b/`,
because the SQL `LIKE` pattern `a_b/%` treats the underscore as a one-
character wildcard (the sibling tree is not left untouched). -/
theorem C9_remove_like_cex :
    (cmdFSRemove true (str "a_b") exC9db).1 = none ∧
    findEnt (str "axb/d") (cmdFSRemove true (str "a_b") exC9db).2 = none ∧
    (findEnt (str "axb") (cmdFSRemove true (str "a_b") exC9db).2).isSome = true := by
  decide

/-- C10, counterexample to the invariant clause: `new_file("a",
content="x")` on an existing directory `a` reports success and inserts a
line row owned by the directory-kind entry — the initial-content insert of
`upsertFile` selects the entry id without the `type='file'` restriction
that `getFileID` applies. -/
theorem C10_dir_line_cex :
    (cmdFSNewFile (str "a") [] (str "x") (cmdFSMakeDir (str "a") [] dbEmpty)).1 = none ∧
    (cmdFSNewFile (str "a") [] (str "x") (cmdFSMakeDir (str "a") [] dbEmpty)).2.lines =
      [⟨1, 1, str "x", none, none⟩] ∧
    kindAt (str "a") (cmdFSNewFile (str "a") [] (str "x")
        (cmdFSMakeDir (str "a") [] dbEmpty)).2 = some EKind.dir := by
  decide

/-! Basic facts about the string helpers. -/

theorem dropWhile_beq_self {c : Char} {s : Str} (h : ∀ a, s.head? = some a → a ≠ c) :
    s.dropWhile (fun a => a == c) = s := by
  cases s with
  | nil => rfl
  | cons a t =>
    have hf : (a == c) = false := beq_eq_false_iff_ne.2 (h a rfl)
    simp [List.dropWhile_cons, hf]

theorem trimC_self {c : Char} {s : Str} (h : c ∉ s) : trimC c s = s := by
  have hh : ∀ (u : Str), c ∉ u → u.dropWhile (fun a => a == c) = u := by
    intro u hu
    apply dropWhile_beq_self
    intro a ha he
    exact hu (he ▸ List.mem_of_mem_head? (Option.mem_def.2 ha))
  unfold trimC
  rw [hh s h, hh s.reverse (by simpa using h), List.reverse_reverse]

theorem trimC_edgeOK {s : Str} (h : edgeOK s) : trimC '/' s = s := by
  unfold trimC
  rw [dropWhile_beq_self h.1, dropWhile_beq_self, List.reverse_reverse]
  intro a ha
  exact h.2 a ((List.head?_reverse s) ▸ ha)

theorem splitC_not_mem {c : Char} : ∀ {s : Str}, ∀ g ∈ splitC c s, c ∉ g := by
  intro s
  induction s with
  | nil =>
    intro g hg
    rw [splitC] at hg
    rcases List.mem_cons.1 hg with hg | hg
    · subst hg; simp
    · simp at hg
  | cons a t ih =>
    intro g hg
    rw [splitC] at hg
    by_cases hac : (a == c) = true
    · rw [if_pos hac] at hg
      rcases List.mem_cons.1 hg with hg | hg
      · subst hg; simp
      · exact ih g hg
    · rw [if_neg hac] at hg
      have hane : a ≠ c := by simpa using hac
      rcases he : splitC c t with _ | ⟨g0, gs⟩
      · rw [he] at hg
        simp only [] at hg
        rcases List.mem_cons.1 hg with hg | hg
        · subst hg
          intro hm
          rcases List.mem_cons.1 hm with hm | hm
          · exact hane hm.symm
          · simp at hm
        · simp at hg
      · rw [he] at hg
        simp only [] at hg
        rcases List.mem_cons.1 hg with hg | hg
        · subst hg
          intro hm
          rcases List.mem_cons.1 hm with hm | hm
          · exact hane hm.symm
          · exact ih g0 (he ▸ List.mem_cons_self g0 gs) hm
        · exact ih g (he ▸ List.mem_cons_of_mem g0 hg)

theorem startsW_append (p t : Str) : startsW p (p ++ t) = true := by
  induction p with
  | nil => rfl
  | cons a q ih => simp [startsW, ih]

theorem startsW_iff {p s : Str} : startsW p s = true ↔ ∃ t, s = p ++ t := by
  constructor
  · intro h
    induction p generalizing s with
    | nil => exact ⟨s, rfl⟩
    | cons a q ih =>
      cases s with
      | nil => simp [startsW] at h
      | cons b t =>
        rw [startsW, Bool.and_eq_true, beq_iff_eq] at h
        obtain ⟨t2, ht⟩ := ih h.2
        exact ⟨t2, by simp [h.1, ht]⟩
  · rintro ⟨t, rfl⟩
    exact startsW_append p t

theorem lastIdxC_eq_none {c : Char} {s : Str} (h : c ∉ s) : lastIdxC c s = none := by
  induction s with
  | nil => rfl
  | cons a t ih =>
    have h1 : c ∉ t := fun hm => h (List.mem_cons_of_mem a hm)
    have h2 : (a == c) = false := beq_eq_false_iff_ne.2 (fun e => h (e ▸ List.mem_cons_self a t))
    simp [lastIdxC, ih h1, h2]

theorem dropPre_append (p t : Str) : dropPre p (p ++ t) = t := by
  unfold dropPre
  rw [if_pos (startsW_append p t)]
  exact List.drop_left p t

/-! Facts about the LIKE evaluator. -/

theorem likeFuel_congr :
    ∀ f g ps s, ps.length + s.length < f → ps.length + s.length < g →
      likeFuel f ps s = likeFuel g ps s := by
  intro f
  induction f with
  | zero => intro g ps s hf _; exact absurd hf (by omega)
  | succ f ih =>
    intro g ps s hf hg
    cases g with
    | zero => exact absurd hg (by omega)
    | succ g =>
      cases ps with
      | nil => rfl
      | cons c ps =>
        cases s with
        | nil =>
          simp only [likeFuel]
          by_cases hc : c = '%'
          · rw [if_pos hc, if_pos hc,
              ih g ps [] (by simp at hf ⊢; omega) (by simp at hg ⊢; omega)]
          · rw [if_neg hc, if_neg hc]
        | cons d cs =>
          simp only [likeFuel]
          by_cases hc : c = '%'
          · rw [if_pos hc, if_pos hc,
              ih g ps (d :: cs) (by simp at hf ⊢; omega) (by simp at hg ⊢; omega),
              ih g (c :: ps) cs (by simp at hf ⊢; omega) (by simp at hg ⊢; omega)]
          · rw [if_neg hc, if_neg hc]
            by_cases hu : c = '_'
            · rw [if_pos hu, if_pos hu,
                ih g ps cs (by simp at hf ⊢; omega) (by simp at hg ⊢; omega)]
            · rw [if_neg hu, if_neg hu,
                ih g ps cs (by simp at hf ⊢; omega) (by simp at hg ⊢; omega)]

theorem likeM_eq_fuel {f : Nat} {ps s : Str} (h : ps.length + s.length < f) :
    likeFuel f ps s = likeM ps s :=
  likeFuel_congr f (ps.length + s.length + 1) ps s h (by omega)

theorem likeM_nil_eq (s : Str) : likeM [] s = (s == []) := rfl

theorem likeM_cons_nil (c : Char) (ps : Str) :
    likeM (c :: ps) [] = (if c = '%' then likeM ps [] else false) := by
  have h : likeM (c :: ps) [] =
      (if c = '%' then likeFuel ((c :: ps).length + [].length) ps [] else false) := rfl
  rw [h]
  by_cases hc : c = '%'
  · rw [if_pos hc, if_pos hc, likeM_eq_fuel (show ps.length + [].length <
      (c :: ps).length + [].length by simp)]
  · rw [if_neg hc, if_neg hc]

theorem likeM_cons_cons (c : Char) (ps : Str) (d : Char) (cs : Str) :
    likeM (c :: ps) (d :: cs) =
      (if c = '%' then likeM ps (d :: cs) || likeM (c :: ps) cs
       else if c = '_' then likeM ps cs
       else foldC c == foldC d && likeM ps cs) := by
  have h : likeM (c :: ps) (d :: cs) =
      (if c = '%' then
        likeFuel ((c :: ps).length + (d :: cs).length) ps (d :: cs) ||
          likeFuel ((c :: ps).length + (d :: cs).length) (c :: ps) cs
      else if c = '_' then likeFuel ((c :: ps).length + (d :: cs).length) ps cs
      else foldC c == foldC d &&
        likeFuel ((c :: ps).length + (d :: cs).length) ps cs) := rfl
  rw [h,
    likeM_eq_fuel (show ps.length + (d :: cs).length <
      (c :: ps).length + (d :: cs).length by simp),
    likeM_eq_fuel (show (c :: ps).length + cs.length <
      (c :: ps).length + (d :: cs).length by simp),
    likeM_eq_fuel (show ps.length + cs.length <
      (c :: ps).length + (d :: cs).length by simp; omega)]

theorem likeM_pct_any (s : Str) : likeM ['%'] s = true := by
  induction s with
  | nil => decide
  | cons d cs ih =>
    rw [likeM_cons_cons, if_pos rfl, ih]
    simp

theorem likeM_self_star : ∀ (lit rest : Str), likeM (lit ++ ['%']) (lit ++ rest) = true := by
  intro lit
  induction lit with
  | nil => intro rest; simpa using likeM_pct_any rest
  | cons a lit ih =>
    intro rest
    rw [List.cons_append, List.cons_append]
    by_cases ha : a = '%'
    · rw [likeM_cons_cons, if_pos ha]
      have h2 : likeM (a :: (lit ++ ['%'])) (lit ++ rest) = true := by
        subst ha
        cases hl : lit ++ rest with
        | nil =>
          rw [likeM_cons_nil, if_pos rfl]
          have hn : lit = [] := (List.append_eq_nil.1 hl).1
          subst hn
          simpa using likeM_pct_any []
        | cons d cs =>
          rw [likeM_cons_cons, if_pos rfl, ← hl, ih rest]
          simp
      rw [h2]
      simp
    · by_cases hu : a = '_'
      · rw [likeM_cons_cons, if_neg ha, if_pos hu, ih rest]
      · rw [likeM_cons_cons, if_neg ha, if_neg hu, ih rest]
        simp

theorem likeM_lit_star :
    ∀ (lit : Str), (∀ c ∈ lit, c ≠ '%' ∧ c ≠ '_') →
      ∀ s, likeM (lit ++ ['%']) s = startsW (lit.map foldC) (s.map foldC) := by
  intro lit
  induction lit with
  | nil =>
    intro _ s
    simpa [startsW] using likeM_pct_any s
  | cons a lit ih =>
    intro h s
    have ha := h a (List.mem_cons_self a lit)
    rw [List.cons_append]
    cases s with
    | nil =>
      rw [likeM_cons_nil, if_neg ha.1]
      simp [startsW]
    | cons d cs =>
      rw [likeM_cons_cons, if_neg ha.1, if_neg ha.2,
        ih (fun c hc => h c (List.mem_cons_of_mem a hc)) cs]
      simp [startsW]

theorem foldC_eq_self {c : Char} (h : ('A' ≤ c && c ≤ 'Z') = false) : foldC c = c := by
  unfold foldC
  rw [if_neg]
  simp [h]

theorem map_foldC_self {s : Str} (h : likeSafe s) : s.map foldC = s := by
  induction s with
  | nil => rfl
  | cons a t ih =>
    rw [List.map_cons, foldC_eq_self (h a (List.mem_cons_self a t)).2.2,
      ih (fun c hc => h c (List.mem_cons_of_mem a hc))]

theorem str_slash_pct : ∀ (t : Str), t ++ str "/%" = (t ++ str "/") ++ ['%'] := by
  intro t
  rw [List.append_assoc]
  rfl

theorem subMatch_of_startsW {t p : Str} (h : startsW (t ++ str "/") p = true) :
    subMatch t p = true := by
  obtain ⟨r, rfl⟩ := startsW_iff.1 h
  unfold subMatch
  rw [str_slash_pct, likeM_self_star]
  simp

theorem subMatch_eq_of_safe {t p : Str} (ht : likeSafe t) (hp : likeSafe p) :
    subMatch t p = (decide (p = t) || startsW (t ++ str "/") p) := by
  unfold subMatch
  have hsafe : likeSafe (t ++ str "/") := by
    intro c hc
    rcases List.mem_append.1 hc with hc | hc
    · exact ht c hc
    · have : c = '/' := by simpa [str] using hc
      subst this
      refine ⟨by decide, by decide, by decide⟩
  have hlit : ∀ c ∈ t ++ str "/", c ≠ '%' ∧ c ≠ '_' :=
    fun c hc => ⟨(hsafe c hc).1, (hsafe c hc).2.1⟩
  rw [str_slash_pct, likeM_lit_star _ hlit p, map_foldC_self hsafe, map_foldC_self hp]

/-! Facts about entry lookup and row insertion. -/

theorem findEnt_isSome_iff {p : Str} {db : DB} :
    (findEnt p db).isSome = true ↔ ∃ e ∈ db.entries, e.path = p := by
  unfold findEnt
  rw [List.find?_isSome]
  simp

theorem findEnt_eq_none_iff {p : Str} {db : DB} :
    findEnt p db = none ↔ ∀ e ∈ db.entries, e.path ≠ p := by
  unfold findEnt
  rw [List.find?_eq_none]
  simp

theorem findEnt_entries_eq {db1 db2 : DB} (h : db1.entries = db2.entries) (q : Str) :
    findEnt q db1 = findEnt q db2 := by
  unfold findEnt
  rw [h]

theorem insIgnore_present_noop {p : Str} {db : DB} (h : (findEnt p db).isSome = true)
    (n : Str) (k : EKind) (no ai : Option Str) :
    insIgnoreEntry p n k no ai db = db := by
  unfold insIgnoreEntry
  rw [if_pos h]

theorem findEnt_insIgnore_self (p n : Str) (k : EKind) (no ai : Option Str) (db : DB) :
    (findEnt p (insIgnoreEntry p n k no ai db)).isSome = true := by
  unfold insIgnoreEntry
  by_cases h : (findEnt p db).isSome = true
  · rw [if_pos h]; exact h
  · rw [if_neg h]
    rw [findEnt_isSome_iff]
    exact ⟨⟨db.nextId, p, n, k, no, ai⟩, by simp, rfl⟩

theorem findEnt_insIgnore_mono {q : Str} {db : DB} (h : (findEnt q db).isSome = true)
    (p n : Str) (k : EKind) (no ai : Option Str) :
    (findEnt q (insIgnoreEntry p n k no ai db)).isSome = true := by
  unfold insIgnoreEntry
  by_cases hp : (findEnt p db).isSome = true
  · rw [if_pos hp]; exact h
  · rw [if_neg hp]
    rw [findEnt_isSome_iff] at h ⊢
    obtain ⟨e, he, hep⟩ := h
    exact ⟨e, by simp [he], hep⟩

theorem mem_insIgnore {e : Entry} {db : DB} (h : e ∈ db.entries)
    (p n : Str) (k : EKind) (no ai : Option Str) :
    e ∈ (insIgnoreEntry p n k no ai db).entries := by
  unfold insIgnoreEntry
  by_cases hp : (findEnt p db).isSome = true
  · rw [if_pos hp]; exact h
  · rw [if_neg hp]; simp [h]

theorem findEnt_updMeta_mono {q : Str} {db : DB} (h : (findEnt q db).isSome = true)
    (p no ai : Str) : (findEnt q (updMeta p no ai db)).isSome = true := by
  rw [findEnt_isSome_iff] at h ⊢
  obtain ⟨e, he, hep⟩ := h
  unfold updMeta
  refine ⟨_, List.mem_map_of_mem _ he, ?_⟩
  by_cases hp : e.path = p
  · rw [if_pos hp]
    simpa using hep
  · rw [if_neg hp]
    exact hep

theorem attachTag_entries (p t : Str) (db : DB) : (attachTag p t db).entries = db.entries := by
  unfold attachTag
  rcases h : findEnt p db with _ | e <;> rfl

theorem attachTags_entries (ts : List Str) (p : Str) (db : DB) :
    (ts.foldl (fun d t => attachTag p t d) db).entries = db.entries := by
  induction ts generalizing db with
  | nil => rfl
  | cons t ts ih => rw [List.foldl_cons, ih, attachTag_entries]

theorem upsertDir_nometa (p n : Str) (b : Bool) (db : DB) :
    upsertDir p n b [] [] [] db = insIgnoreEntry (trimC '/' p) n EKind.dir none none db := by
  unfold upsertDir
  cases b <;> simp

theorem findEnt_upsertDir_mono {q : Str} {db : DB} (h : (findEnt q db).isSome = true)
    (p n : Str) (b : Bool) (tags : List Str) (no ai : Str) :
    (findEnt q (upsertDir p n b tags no ai db)).isSome = true := by
  unfold upsertDir
  have h1 := findEnt_insIgnore_mono h (trimC '/' p) n EKind.dir none none
  cases b
  · simpa using h1
  · simp only [Bool.true_eq, if_true]
    set db1 := insIgnoreEntry (trimC '/' p) n EKind.dir none none db with hdb1
    have h2 : ∀ d2 : DB, (findEnt q d2).isSome = true →
        (findEnt q (if tags ≠ [] then tags.foldl (fun d t => attachTag (trimC '/' p) t d) d2
          else d2)).isSome = true := by
      intro d2 hd2
      by_cases ht : tags ≠ ([] : List Str)
      · rw [if_pos ht, findEnt_entries_eq (attachTags_entries tags (trimC '/' p) d2) q]
        exact hd2
      · rw [if_neg ht]; exact hd2
    by_cases hm : no ≠ ([] : Str) ∨ ai ≠ ([] : Str)
    · rw [if_pos hm]
      exact h2 _ (findEnt_updMeta_mono h1 (trimC '/' p) no ai)
    · rw [if_neg hm]
      exact h2 _ h1

theorem findEnt_upsertDir_self (p n : Str) (b : Bool) (tags : List Str) (no ai : Str)
    (db : DB) : (findEnt (trimC '/' p) (upsertDir p n b tags no ai db)).isSome = true := by
  unfold upsertDir
  have h1 := findEnt_insIgnore_self (trimC '/' p) n EKind.dir none none db
  cases b
  · simpa using h1
  · simp only [Bool.true_eq, if_true]
    have h2 : ∀ d2 : DB, (findEnt (trimC '/' p) d2).isSome = true →
        (findEnt (trimC '/' p)
          (if tags ≠ [] then tags.foldl (fun d t => attachTag (trimC '/' p) t d) d2
           else d2)).isSome = true := by
      intro d2 hd2
      by_cases ht : tags ≠ ([] : List Str)
      · rw [if_pos ht, findEnt_entries_eq (attachTags_entries tags (trimC '/' p) d2) _]
        exact hd2
      · rw [if_neg ht]; exact hd2
    by_cases hm : no ≠ ([] : Str) ∨ ai ≠ ([] : Str)
    · rw [if_pos hm]
      exact h2 _ (findEnt_updMeta_mono h1 (trimC '/' p) no ai)
    · rw [if_neg hm]
      exact h2 _ h1

/-! Facts about the component walk of make_directory. -/

theorem edgeOK_nil : edgeOK [] := by
  constructor <;> intro a ha <;> simp at ha

theorem getLast?_ne_none {y : Char} {ys : List Char} (h : (y :: ys).getLast? = none) :
    False := by
  rw [← List.head?_reverse] at h
  rcases hr : (y :: ys).reverse with _ | ⟨b, bs⟩
  · have := congrArg List.length hr
    simp at this
  · rw [hr] at h
    simp at h

theorem joinStep_ne_nil {cur c : Str} (hc : c ≠ []) : joinStep cur c ≠ [] := by
  unfold joinStep
  by_cases h : cur = ([] : Str)
  · rw [if_pos h]; exact hc
  · rw [if_neg h]; simp

theorem joinStep_length {cur c : Str} (h : cur ≠ []) :
    (joinStep cur c).length = cur.length + c.length + 1 := by
  unfold joinStep
  rw [if_neg h]
  simp only [List.length_append, List.length_cons]
  omega

theorem edgeOK_joinStep {cur c : Str} (hc : c ≠ []) (hs : '/' ∉ c) (h : edgeOK cur) :
    edgeOK (joinStep cur c) := by
  unfold joinStep
  by_cases hcur : cur = ([] : Str)
  · rw [if_pos hcur]
    constructor
    · intro a ha he
      exact hs (he ▸ List.mem_of_mem_head? (Option.mem_def.2 ha))
    · intro a ha he
      exact hs (he ▸ List.mem_of_mem_getLast? (Option.mem_def.2 ha))
  · rw [if_neg hcur]
    cases cur with
    | nil => exact absurd rfl hcur
    | cons x xs =>
      constructor
      · intro a ha
        rw [List.cons_append, List.head?_cons] at ha
        have hax : x = a := Option.some.inj ha
        exact hax ▸ h.1 x rfl
      · intro a ha
        rw [List.getLast?_append] at ha
        cases c with
        | nil => exact absurd rfl hc
        | cons y ys =>
          rw [List.getLast?_cons_cons] at ha
          rcases hg : (y :: ys).getLast? with _ | b
          · exact absurd hg getLast?_ne_none
          · rw [hg] at ha
            have hab : b = a := by simpa using ha
            intro he
            exact hs (he ▸ hab ▸ List.mem_of_mem_getLast? (Option.mem_def.2 hg))

theorem mkdirLoop_mono (tags : List Str) (no ai : Str) :
    ∀ (comps : List Str) (cur : Str) (db : DB) {q : Str},
      (findEnt q db).isSome = true →
      (findEnt q (mkdirLoop tags no ai comps cur db)).isSome = true := by
  intro comps
  induction comps with
  | nil =>
    intro cur db q h
    rw [mkdirLoop]
    exact h
  | cons c rest ih =>
    intro cur db q h
    rw [mkdirLoop]
    by_cases hc : c = ([] : Str)
    · rw [if_pos hc]
      exact ih cur db h
    · rw [if_neg hc]
      exact ih _ _ (findEnt_upsertDir_mono h _ _ _ _ _ _)

theorem mkdirLoop_acc_present (tags : List Str) (no ai : Str) :
    ∀ (comps : List Str) (cur : Str) (db : DB),
      (∀ c ∈ comps, '/' ∉ c) → edgeOK cur →
      ∀ q ∈ accPaths cur comps,
        (findEnt q (mkdirLoop tags no ai comps cur db)).isSome = true := by
  intro comps
  induction comps with
  | nil => intro cur db _ _ q hq; simp [accPaths] at hq
  | cons c rest ih =>
    intro cur db hcs hcur q hq
    rw [accPaths] at hq
    rw [mkdirLoop]
    by_cases hc : c = ([] : Str)
    · rw [if_pos hc] at hq
      rw [if_pos hc]
      exact ih cur db (fun x hx => hcs x (List.mem_cons_of_mem c hx)) hcur q hq
    · rw [if_neg hc] at hq
      rw [if_neg hc]
      have hce : edgeOK (joinStep cur c) :=
        edgeOK_joinStep hc (hcs c (List.mem_cons_self c rest)) hcur
      rcases List.mem_cons.1 hq with hq | hq
      · subst hq
        apply mkdirLoop_mono
        have hself := findEnt_upsertDir_self (joinStep cur c) c
          (decide (rest = [])) tags no ai db
        rwa [trimC_edgeOK hce] at hself
      · exact ih _ _ (fun x hx => hcs x (List.mem_cons_of_mem c hx)) hce q hq

theorem parseMeta_nil : parseMeta [] = ([], [], []) := rfl

theorem cmdFSMakeDir_nometa (p : Str) (db : DB) :
    cmdFSMakeDir p [] db = mkdirLoop [] [] [] (splitC '/' (trimC '/' p)) [] db := by
  unfold cmdFSMakeDir
  rw [parseMeta_nil]

theorem mkdirLoop_noop :
    ∀ (comps : List Str) (cur : Str) (db : DB),
      (∀ c ∈ comps, '/' ∉ c) → edgeOK cur →
      (∀ q ∈ accPaths cur comps, (findEnt q db).isSome = true) →
      mkdirLoop [] [] [] comps cur db = db := by
  intro comps
  induction comps with
  | nil => intro cur db _ _ _; rw [mkdirLoop]
  | cons c rest ih =>
    intro cur db hcs hcur hpres
    rw [mkdirLoop]
    by_cases hc : c = ([] : Str)
    · rw [if_pos hc]
      refine ih cur db (fun x hx => hcs x (List.mem_cons_of_mem c hx)) hcur ?_
      intro q hq
      apply hpres
      rw [accPaths, if_pos hc]
      exact hq
    · rw [if_neg hc]
      have hce : edgeOK (joinStep cur c) :=
        edgeOK_joinStep hc (hcs c (List.mem_cons_self c rest)) hcur
      have hj : (findEnt (joinStep cur c) db).isSome = true := by
        apply hpres
        rw [accPaths, if_neg hc]
        exact List.mem_cons_self _ _
      have hup : upsertDir (joinStep cur c) c (decide (rest = [])) [] [] [] db = db := by
        rw [upsertDir_nometa, trimC_edgeOK hce]
        exact insIgnore_present_noop hj c EKind.dir none none
      rw [hup]
      refine ih (joinStep cur c) db (fun x hx => hcs x (List.mem_cons_of_mem c hx)) hce ?_
      intro q hq
      apply hpres
      rw [accPaths, if_neg hc]
      exact List.mem_cons_of_mem _ hq

theorem mkdirLoop_paths :
    ∀ (comps : List Str) (cur : Str) (db : DB),
      (∀ c ∈ comps, '/' ∉ c) → edgeOK cur →
      ((cur = [] ∧ db.entries = []) ∨
        (cur ≠ [] ∧ ∀ e ∈ db.entries, e.path.length ≤ cur.length)) →
      (mkdirLoop [] [] [] comps cur db).entries.map Entry.path =
        db.entries.map Entry.path ++ accPaths cur comps := by
  intro comps
  induction comps with
  | nil =>
    intro cur db _ _ _
    rw [mkdirLoop, accPaths, List.append_nil]
  | cons c rest ih =>
    intro cur db hcs hcur hinv
    rw [mkdirLoop, accPaths]
    by_cases hc : c = ([] : Str)
    · rw [if_pos hc, if_pos hc]
      exact ih cur db (fun x hx => hcs x (List.mem_cons_of_mem c hx)) hcur hinv
    · rw [if_neg hc, if_neg hc]
      have hslash := hcs c (List.mem_cons_self c rest)
      have hce : edgeOK (joinStep cur c) := edgeOK_joinStep hc hslash hcur
      have hnone : findEnt (joinStep cur c) db = none := by
        rw [findEnt_eq_none_iff]
        intro e he heq
        rcases hinv with ⟨_, hemp⟩ | ⟨hne, hlen⟩
        · rw [hemp] at he; simp at he
        · have h1 := hlen e he
          rw [heq, joinStep_length hne] at h1
          omega
      have hup : upsertDir (joinStep cur c) c (decide (rest = [])) [] [] [] db =
          { db with
            entries := db.entries ++
              [⟨db.nextId, joinStep cur c, c, EKind.dir, none, none⟩],
            nextId := db.nextId + 1 } := by
        rw [upsertDir_nometa, trimC_edgeOK hce]
        unfold insIgnoreEntry
        rw [if_neg (by rw [hnone]; simp)]
      rw [hup]
      have hrec := ih (joinStep cur c)
        { db with
          entries := db.entries ++
            [⟨db.nextId, joinStep cur c, c, EKind.dir, none, none⟩],
          nextId := db.nextId + 1 }
        (fun x hx => hcs x (List.mem_cons_of_mem c hx)) hce ?_
      · rw [hrec]
        simp [List.map_append, List.append_assoc]
      · right
        refine ⟨joinStep_ne_nil hc, ?_⟩
        intro e he
        have he4 : e ∈ db.entries ∨
            e = ⟨db.nextId, joinStep cur c, c, EKind.dir, none, none⟩ := by
          simpa using he
        rcases he4 with he2 | he2
        · rcases hinv with ⟨hnil, hemp⟩ | ⟨hne, hlen⟩
          · rw [hemp] at he2; simp at he2
          · have h1 := hlen e he2
            rw [joinStep_length hne]
            omega
        · rw [he2]

/-- C4: metadata-free `make_directory` is idempotent on every database (the
second call only issues ignored `INSERT OR IGNORE` statements, leaves the
state exactly as after the first call, and — having no failing statement —
cannot raise any error such as `AlreadyExists`); and from an empty store,
`make_directory("a/b/c")` creates exactly one entry per segment prefix. -/
theorem C4_mkdir_idempotent :
    (∀ (p : Str) (db : DB),
      cmdFSMakeDir p [] (cmdFSMakeDir p [] db) = cmdFSMakeDir p [] db) ∧
    (cmdFSMakeDir (str "a/b/c") [] dbEmpty).entries.map Entry.path =
      [str "a", str "a/b", str "a/b/c"] := by
  constructor
  · intro p db
    rw [cmdFSMakeDir_nometa, cmdFSMakeDir_nometa]
    apply mkdirLoop_noop
    · exact fun c hc => splitC_not_mem c hc
    · exact edgeOK_nil
    · intro q hq
      exact mkdirLoop_acc_present [] [] [] _ [] db
        (fun c hc => splitC_not_mem c hc) edgeOK_nil q hq
  · decide

/-- C3 (amended): the only path normalization the engine performs is
stripping leading and trailing slashes (`strings.Trim(path, "/")`), with
`make_directory`'s component walk additionally collapsing empty segments;
`.` and `..` segments are not treated specially but stored as literal path
components, and resolving above the root is never detected.  The first
conjunct characterizes the stored paths of a `make_directory` call as
exactly the accumulated joins of the nonempty components of the
slash-trimmed argument; the concrete conjuncts illustrate the collapse of
empty segments and the literal treatment of dot segments. -/
theorem C3_normalization_amended :
    (∀ p : Str, (cmdFSMakeDir p [] dbEmpty).entries.map Entry.path = mkdirPaths p) ∧
    mkdirPaths (str "//a///b/") = [str "a", str "a/b"] ∧
    mkdirPaths (str "./a") = [str ".", str "./a"] := by
  refine ⟨?_, by decide, by decide⟩
  intro p
  rw [cmdFSMakeDir_nometa]
  unfold mkdirPaths
  apply mkdirLoop_paths
  · exact fun c hc => splitC_not_mem c hc
  · exact edgeOK_nil
  · left; exact ⟨rfl, rfl⟩

/-! Facts about strict path splits and normalized segment joins. -/

theorem splitsAt_no_slash {r q : Str} (h : splitsAt r q) (hq : '/' ∉ q) : False := by
  obtain ⟨t, ht⟩ := h
  apply hq
  rw [ht]
  simp

theorem split_append_case :
    ∀ (cur r t c : Str), '/' ∉ c →
      cur ++ '/' :: c = r ++ '/' :: t → r = cur ∨ splitsAt r cur := by
  intro cur
  induction cur with
  | nil =>
    intro r t c hc heq
    cases r with
    | nil => exact Or.inl rfl
    | cons b r2 =>
      exfalso
      rw [List.nil_append, List.cons_append] at heq
      have hcr : c = r2 ++ '/' :: t := (List.cons.inj heq).2
      apply hc
      rw [hcr]
      simp
  | cons a cur2 ih =>
    intro r t c hc heq
    cases r with
    | nil =>
      rw [List.cons_append, List.nil_append] at heq
      have ha : a = '/' := (List.cons.inj heq).1
      right
      exact ⟨cur2, by rw [ha]; rfl⟩
    | cons b r2 =>
      rw [List.cons_append, List.cons_append] at heq
      have hab : a = b := (List.cons.inj heq).1
      have htail : cur2 ++ '/' :: c = r2 ++ '/' :: t := (List.cons.inj heq).2
      rcases ih r2 t c hc htail with h2 | ⟨t2, ht2⟩
      · exact Or.inl (by rw [hab, h2])
      · exact Or.inr ⟨t2, by rw [List.cons_append, hab, ht2]⟩

theorem splitsAt_joinStep {cur c r : Str} (_hc : c ≠ []) (hs : '/' ∉ c)
    (h : splitsAt r (joinStep cur c)) : cur ≠ [] ∧ (r = cur ∨ splitsAt r cur) := by
  unfold joinStep at h
  by_cases hcur : cur = ([] : Str)
  · rw [if_pos hcur] at h
    exact absurd hs (fun hs2 => splitsAt_no_slash h hs2)
  · rw [if_neg hcur] at h
    obtain ⟨t, ht⟩ := h
    exact ⟨hcur, split_append_case cur r t c hs ht⟩

theorem joinSlash_cons_cons (s : Str) (y : Str) (rest : List Str) :
    joinSlash (s :: y :: rest) = s ++ '/' :: joinSlash (y :: rest) := rfl

theorem joinSlash_ne_nil {segs : List Str} (h1 : segs ≠ []) (h2 : ∀ c ∈ segs, c ≠ []) :
    joinSlash segs ≠ [] := by
  cases segs with
  | nil => exact absurd rfl h1
  | cons s rest =>
    cases rest with
    | nil => exact h2 s (List.mem_cons_self s [])
    | cons y ys =>
      rw [joinSlash_cons_cons]
      intro he
      have hs : s = [] := (List.append_eq_nil.1 he).1
      exact h2 s (List.mem_cons_self s (y :: ys)) hs

theorem edgeOK_joinSlash :
    ∀ (segs : List Str), (∀ c ∈ segs, c ≠ [] ∧ '/' ∉ c) → edgeOK (joinSlash segs) := by
  intro segs
  induction segs with
  | nil => intro _; exact edgeOK_nil
  | cons s rest ih =>
    intro h
    have hs := h s (List.mem_cons_self s rest)
    cases rest with
    | nil =>
      constructor
      · intro a ha he
        exact hs.2 (he ▸ List.mem_of_mem_head? (Option.mem_def.2 ha))
      · intro a ha he
        exact hs.2 (he ▸ List.mem_of_mem_getLast? (Option.mem_def.2 ha))
    | cons y ys =>
      have ihr := ih (fun c hc => h c (List.mem_cons_of_mem s hc))
      rw [joinSlash_cons_cons]
      constructor
      · intro a ha
        cases s with
        | nil => exact absurd rfl hs.1
        | cons x xs =>
          rw [List.cons_append, List.head?_cons] at ha
          have hax : x = a := Option.some.inj ha
          intro he
          exact hs.2 (he ▸ hax ▸ List.mem_cons_self x xs)
      · intro a ha
        rw [List.getLast?_append] at ha
        have hjn : joinSlash (y :: ys) ≠ [] :=
          joinSlash_ne_nil (by simp)
            (fun c hc => (h c (List.mem_cons_of_mem s hc)).1)
        cases hj : joinSlash (y :: ys) with
        | nil => exact absurd hj hjn
        | cons z zs =>
          rw [hj, List.getLast?_cons_cons] at ha
          rcases hg : (z :: zs).getLast? with _ | b
          · exact absurd hg getLast?_ne_none
          · rw [hg] at ha
            have hab : b = a := by simpa using ha
            have hga : (joinSlash (y :: ys)).getLast? = some a := by
              rw [hj, hg, hab]
            exact ihr.2 a hga

theorem mkdirLoop_closure (tags : List Str) (no ai : Str) :
    ∀ (comps : List Str) (cur : Str) (db : DB),
      (∀ c ∈ comps, '/' ∉ c) → edgeOK cur →
      (cur = [] ∨ ((findEnt cur db).isSome = true ∧
        ∀ r, splitsAt r cur → (findEnt r db).isSome = true)) →
      ∀ q ∈ accPaths cur comps, ∀ r, splitsAt r q →
        (findEnt r (mkdirLoop tags no ai comps cur db)).isSome = true := by
  intro comps
  induction comps with
  | nil => intro cur db _ _ _ q hq; simp [accPaths] at hq
  | cons c rest ih =>
    intro cur db hcs hcur hinv q hq r hr
    rw [accPaths] at hq
    rw [mkdirLoop]
    by_cases hc : c = ([] : Str)
    · rw [if_pos hc] at hq
      rw [if_pos hc]
      exact ih cur db (fun x hx => hcs x (List.mem_cons_of_mem c hx)) hcur hinv q hq r hr
    · rw [if_neg hc] at hq
      rw [if_neg hc]
      have hslash := hcs c (List.mem_cons_self c rest)
      have hce : edgeOK (joinStep cur c) := edgeOK_joinStep hc hslash hcur
      have hj2 : (findEnt (joinStep cur c)
          (upsertDir (joinStep cur c) c (decide (rest = [])) tags no ai db)).isSome = true := by
        have hself := findEnt_upsertDir_self (joinStep cur c) c
          (decide (rest = [])) tags no ai db
        rwa [trimC_edgeOK hce] at hself
      have hcl2 : ∀ r2, splitsAt r2 (joinStep cur c) →
          (findEnt r2
            (upsertDir (joinStep cur c) c (decide (rest = [])) tags no ai db)).isSome = true := by
        intro r2 hr2
        obtain ⟨hcne, hcase⟩ := splitsAt_joinStep hc hslash hr2
        rcases hinv with hnil | ⟨hpres, hclose⟩
        · exact absurd hnil hcne
        · rcases hcase with hc2 | hc2
          · exact findEnt_upsertDir_mono (hc2 ▸ hpres) _ _ _ _ _ _
          · exact findEnt_upsertDir_mono (hclose r2 hc2) _ _ _ _ _ _
      rcases List.mem_cons.1 hq with hq | hq
      · subst hq
        exact mkdirLoop_mono tags no ai rest (joinStep cur c) _ (hcl2 r hr)
      · exact ih (joinStep cur c) _ (fun x hx => hcs x (List.mem_cons_of_mem c hx)) hce
          (Or.inr ⟨hj2, hcl2⟩) q hq r hr

/-! Splitting a clean join back into its segments, and the parent-path
computation of `new_file` on clean paths. -/

theorem splitC_no_sep {s : Str} (h : '/' ∉ s) : splitC '/' s = [s] := by
  induction s with
  | nil => rfl
  | cons a t ih =>
    have ha : (a == '/') = false :=
      beq_eq_false_iff_ne.2 (fun e => h (e ▸ List.mem_cons_self a t))
    rw [splitC, if_neg (by simp [ha]), ih (fun hm => h (List.mem_cons_of_mem a hm))]

theorem splitC_append_sep {s t : Str} (h : '/' ∉ s) :
    splitC '/' (s ++ '/' :: t) = s :: splitC '/' t := by
  induction s with
  | nil =>
    rw [List.nil_append, splitC, if_pos (by simp)]
  | cons a s2 ih =>
    have ha : (a == '/') = false :=
      beq_eq_false_iff_ne.2 (fun e => h (e ▸ List.mem_cons_self a s2))
    rw [List.cons_append, splitC, if_neg (by simp [ha]),
      ih (fun hm => h (List.mem_cons_of_mem a hm))]

theorem splitC_joinSlash :
    ∀ (segs : List Str), segs ≠ [] → (∀ c ∈ segs, '/' ∉ c) →
      splitC '/' (joinSlash segs) = segs := by
  intro segs
  induction segs with
  | nil => intro h _; exact absurd rfl h
  | cons s rest ih =>
    intro _ h
    cases rest with
    | nil => exact splitC_no_sep (h s (List.mem_cons_self s []))
    | cons y ys =>
      rw [joinSlash_cons_cons, splitC_append_sep (h s (List.mem_cons_self s _)),
        ih (by simp) (fun c hc => h c (List.mem_cons_of_mem s hc))]

theorem lastIdxC_append_sep {A B : Str} (h : '/' ∉ B) :
    lastIdxC '/' (A ++ '/' :: B) = some A.length := by
  induction A with
  | nil =>
    rw [List.nil_append, lastIdxC, lastIdxC_eq_none h]
    simp
  | cons a A2 ih =>
    rw [List.cons_append, lastIdxC, ih]
    simp

theorem joinSlash_concat {xs : List Str} {y : Str} (h : xs ≠ []) :
    joinSlash (xs ++ [y]) = joinSlash xs ++ '/' :: y := by
  induction xs with
  | nil => exact absurd rfl h
  | cons s rest ih =>
    cases rest with
    | nil => rfl
    | cons z zs =>
      have ih2 := ih (by simp)
      rw [List.cons_append, List.cons_append, joinSlash_cons_cons,
        show z :: (zs ++ [y]) = (z :: zs) ++ [y] from (List.cons_append z zs [y]).symm,
        ih2, joinSlash_cons_cons]
      simp

theorem foldl_no_dots :
    ∀ (l : List Str) (acc : List Str),
      (∀ c ∈ l, c ≠ str "." ∧ c ≠ str "..") →
      l.foldl (fun acc2 s =>
        if s = str "." then acc2
        else if s = str ".." then
          match acc2 with
          | [] => [s]
          | a :: rest => if a = str ".." then s :: a :: rest else rest
        else s :: acc2) acc = l.reverse ++ acc := by
  intro l
  induction l with
  | nil => intro acc _; simp
  | cons s rest ih =>
    intro acc h
    have hs := h s (List.mem_cons_self s rest)
    rw [List.foldl_cons, if_neg hs.1, if_neg hs.2,
      ih (s :: acc) (fun c hc => h c (List.mem_cons_of_mem s hc))]
    simp

theorem startsW_slash_false {p : Str} (h : ∀ a, p.head? = some a → a ≠ '/') :
    startsW (str "/") p = false := by
  cases p with
  | nil => rfl
  | cons a t =>
    have ha : ('/' == a) = false := beq_eq_false_iff_ne.2 (fun e => h a rfl e.symm)
    show ('/' == a && startsW [] t) = false
    rw [ha]
    rfl

theorem cleanP_eval {p : Str} (hroot : startsW (str "/") p = false)
    (hdots : ∀ c ∈ (splitC '/' p).filter (fun s => s != []),
      c ≠ str "." ∧ c ≠ str "..")
    (hne : (splitC '/' p).filter (fun s => s != []) ≠ []) :
    cleanP p = joinSlash ((splitC '/' p).filter (fun s => s != [])) := by
  unfold cleanP
  simp only [hroot, Bool.false_eq_true, if_false]
  rw [foldl_no_dots _ [] hdots, List.append_nil, List.reverse_reverse]
  have hjn : joinSlash ((splitC '/' p).filter (fun s => s != [])) ≠ [] :=
    joinSlash_ne_nil hne (fun c hc => by simpa using (List.mem_filter.1 hc).2)
  rw [if_neg hjn]

theorem splitC_joinSlash_sep :
    ∀ (segs : List Str), segs ≠ [] → (∀ c ∈ segs, '/' ∉ c) → ∀ (rest : Str),
      splitC '/' (joinSlash segs ++ '/' :: rest) = segs ++ splitC '/' rest := by
  intro segs
  induction segs with
  | nil => intro h _ _; exact absurd rfl h
  | cons s tail ih =>
    intro _ h rest
    cases tail with
    | nil =>
      rw [show joinSlash [s] = s from rfl,
        splitC_append_sep (h s (List.mem_cons_self s []))]
      rfl
    | cons y ys =>
      rw [joinSlash_cons_cons, List.append_assoc, List.cons_append,
        splitC_append_sep (h s (List.mem_cons_self s _))]
      rw [show joinSlash (y :: ys) ++ '/' :: rest =
        joinSlash (y :: ys) ++ '/' :: rest from rfl]
      rw [ih (by simp) (fun c hc => h c (List.mem_cons_of_mem s hc)) rest]
      rfl

theorem goDir_no_slash {s : Str} (h : '/' ∉ s) : goDir s = str "." := by
  unfold goDir
  rw [lastIdxC_eq_none h]
  show cleanP [] = str "."
  decide

theorem goDir_concat {init : List Str} {lastSeg : Str}
    (hinit : init ≠ []) (hclean : ∀ c ∈ init, cleanSeg c) (hlast : '/' ∉ lastSeg) :
    goDir (joinSlash (init ++ [lastSeg])) = joinSlash init := by
  rw [joinSlash_concat hinit]
  unfold goDir
  rw [lastIdxC_append_sep hlast]
  show cleanP ((joinSlash init ++ '/' :: lastSeg).take ((joinSlash init).length + 1)) =
    joinSlash init
  have htake : (joinSlash init ++ '/' :: lastSeg).take ((joinSlash init).length + 1) =
      joinSlash init ++ ['/'] := by
    have h1 : (joinSlash init ++ '/' :: lastSeg).take ((joinSlash init).length + 1) =
        joinSlash init ++ ('/' :: lastSeg).take 1 := List.take_append 1
    simpa using h1
  rw [htake]
  have hsplit : splitC '/' (joinSlash init ++ ['/']) = init ++ [[]] := by
    have := splitC_joinSlash_sep init hinit
      (fun c hc => (hclean c hc).2.1) []
    simpa using this
  have hfilter : (splitC '/' (joinSlash init ++ ['/'])).filter (fun s => s != []) = init := by
    rw [hsplit, List.filter_append]
    have h1 : init.filter (fun s => s != []) = init :=
      List.filter_eq_self.2 (fun c hc => by simpa using (hclean c hc).1)
    have h2 : ([] :: []).filter (fun s : Str => s != []) = [] := rfl
    rw [h1, h2, List.append_nil]
  have hedge : edgeOK (joinSlash init) :=
    edgeOK_joinSlash init (fun c hc => ⟨(hclean c hc).1, (hclean c hc).2.1⟩)
  have hroot : startsW (str "/") (joinSlash init ++ ['/']) = false := by
    apply startsW_slash_false
    intro a ha
    rw [List.head?_append] at ha
    cases hh : (joinSlash init).head? with
    | none =>
      exfalso
      cases hjn : joinSlash init with
      | nil =>
        exact joinSlash_ne_nil hinit (fun c hc => (hclean c hc).1) hjn
      | cons x xs => rw [hjn] at hh; simp at hh
    | some b =>
      rw [hh] at ha
      have hab : b = a := by simpa using ha
      exact hab ▸ hedge.1 b hh
  rw [cleanP_eval hroot (fun c hc => by
      rw [hfilter] at hc
      exact ⟨(hclean c hc).2.2.1, (hclean c hc).2.2.2⟩)
    (by rw [hfilter]; exact hinit)]
  rw [hfilter]

theorem upsertFile_snd_entries (path name : Str) (tags : List Str)
    (no ai content : Str) (db : DB) :
    (upsertFile path name tags no ai content db).2.entries =
      (insIgnoreEntry (trimC '/' path) name EKind.file (some no) (some ai) db).entries := by
  have he2 : (tags.foldl (fun d t => attachTag (trimC '/' path) t d)
      (insIgnoreEntry (trimC '/' path) name EKind.file (some no) (some ai) db)).entries =
      (insIgnoreEntry (trimC '/' path) name EKind.file (some no) (some ai) db).entries :=
    attachTags_entries tags _ _
  simp only [upsertFile]
  split
  · split
    · split
      · exact he2
      · simpa using he2
    · exact he2
  · exact he2

theorem joinSlash_ne_dot {segs : List Str} (h1 : segs ≠ [])
    (h2 : ∀ c ∈ segs, cleanSeg c) : joinSlash segs ≠ str "." := by
  cases segs with
  | nil => exact absurd rfl h1
  | cons s rest =>
    cases rest with
    | nil => exact (h2 s (List.mem_cons_self s [])).2.2.1
    | cons y ys =>
      rw [joinSlash_cons_cons]
      intro he
      have hlen := congrArg List.length he
      have hs1 : s.length ≥ 1 := by
        cases hs : s with
        | nil => exact absurd hs (h2 s (List.mem_cons_self s _)).1
        | cons a t => simp
      have hstr : (str ".").length = 1 := rfl
      rw [List.length_append, List.length_cons, hstr] at hlen
      omega

theorem joinSlash_mem_accPaths :
    ∀ (segs : List Str) (cur : Str), segs ≠ [] → (∀ c ∈ segs, c ≠ []) →
      (if cur = [] then joinSlash segs else cur ++ '/' :: joinSlash segs) ∈
        accPaths cur segs := by
  intro segs
  induction segs with
  | nil => intro cur h _; exact absurd rfl h
  | cons s rest ih =>
    intro cur _ h
    have hs := h s (List.mem_cons_self s rest)
    rw [accPaths, if_neg hs]
    cases rest with
    | nil => exact List.mem_cons_self _ _
    | cons y ys =>
      have ihm := ih (joinStep cur s) (by simp)
        (fun c hc => h c (List.mem_cons_of_mem s hc))
      rw [if_neg (joinStep_ne_nil hs)] at ihm
      apply List.mem_cons_of_mem
      have heq : (if cur = [] then joinSlash (s :: y :: ys)
          else cur ++ '/' :: joinSlash (s :: y :: ys)) =
          joinStep cur s ++ '/' :: joinSlash (y :: ys) := by
        unfold joinStep
        by_cases hcur : cur = ([] : Str)
        · rw [if_pos hcur, if_pos hcur, joinSlash_cons_cons]
        · rw [if_neg hcur, if_neg hcur, joinSlash_cons_cons]
          simp
      rw [heq]
      exact ihm

/-- C5 (amended): immediately after a `make_directory` call, every path the
call upserted is present in the store together with every strict
slash-prefix of it; immediately after a `new_file` call on a normalized
path whose parent path is not one of the help tokens `-h`, `--help`,
`help` (those make the internal `cmdFSMakeDir` re-entry a usage no-op that
creates no parent), the file path and all its strict prefixes are present.
The prefixes are present as entries of some kind, not necessarily
directories: the counterexample shows a file-kind prefix when a file
already occupied the path, a missing `help` parent, and that the property
is not preserved by later operations (a directory move does not create the
destination's ancestors). -/
theorem C5_ancestor_amended :
    (∀ (p meta : Str) (db : DB), ∀ q ∈ mkdirPaths p,
        (findEnt q (cmdFSMakeDir p meta db)).isSome = true ∧
        ∀ r, splitsAt r q → (findEnt r (cmdFSMakeDir p meta db)).isSome = true) ∧
    (∀ (segs : List Str) (p meta content : Str) (db : DB),
        segs ≠ [] → (∀ c ∈ segs, cleanSeg c) → p = joinSlash segs →
        goDir p ≠ str "-h" → goDir p ≠ str "--help" → goDir p ≠ str "help" →
        (findEnt p (cmdFSNewFile p meta content db).2).isSome = true ∧
        ∀ r, splitsAt r p →
          (findEnt r (cmdFSNewFile p meta content db).2).isSome = true) := by
  constructor
  · intro p meta db q hq
    unfold mkdirPaths at hq
    unfold cmdFSMakeDir
    constructor
    · exact mkdirLoop_acc_present _ _ _ _ [] db
        (fun c hc => splitC_not_mem c hc) edgeOK_nil q hq
    · intro r hr
      exact mkdirLoop_closure _ _ _ _ [] db
        (fun c hc => splitC_not_mem c hc) edgeOK_nil (Or.inl rfl) q hq r hr
  · intro segs p meta content db hne hclean hp hg1 hg2 hg3
    have hstep : cmdFSNewFile p meta content db =
        upsertFile p (goBase p) (parseMeta meta).1 (parseMeta meta).2.1
          (parseMeta meta).2.2 content
          (if goDir p ≠ str "." ∧ goDir p ≠ [] then mkDirArgOne (goDir p) db
           else db) := rfl
    have hedgep : edgeOK p := by
      rw [hp]
      exact edgeOK_joinSlash segs (fun c hc => ⟨(hclean c hc).1, (hclean c hc).2.1⟩)
    have htrimp : trimC '/' p = p := trimC_edgeOK hedgep
    have hentries : ∀ db0 : DB,
        (findEnt p (upsertFile p (goBase p) (parseMeta meta).1 (parseMeta meta).2.1
          (parseMeta meta).2.2 content db0).2).isSome = true := by
      intro db0
      rw [@findEnt_entries_eq _ (insIgnoreEntry (trimC '/' p) (goBase p)
          EKind.file (some (parseMeta meta).2.1) (some (parseMeta meta).2.2) db0)
        (upsertFile_snd_entries _ _ _ _ _ _ _) p, htrimp]
      exact findEnt_insIgnore_self p (goBase p) EKind.file
        (some (parseMeta meta).2.1) (some (parseMeta meta).2.2) db0
    have hmono : ∀ (db0 : DB) (r : Str), (findEnt r db0).isSome = true →
        (findEnt r (upsertFile p (goBase p) (parseMeta meta).1 (parseMeta meta).2.1
          (parseMeta meta).2.2 content db0).2).isSome = true := by
      intro db0 r hr
      rw [@findEnt_entries_eq _ (insIgnoreEntry (trimC '/' p) (goBase p)
          EKind.file (some (parseMeta meta).2.1) (some (parseMeta meta).2.2) db0)
        (upsertFile_snd_entries _ _ _ _ _ _ _) r]
      exact findEnt_insIgnore_mono hr _ _ _ _ _
    rcases List.eq_nil_or_concat segs with rfl | ⟨init, lastSeg, hseg⟩
    · exact absurd rfl hne
    · rw [List.concat_eq_append] at hseg
      subst hseg
      have hlastc : cleanSeg lastSeg := hclean lastSeg (by simp)
      rcases hinit : init with _ | ⟨i0, irest⟩
      · -- single segment: p = lastSeg, no parent chain
        subst hinit
        have hpl : p = lastSeg := by simpa using hp
        have hnos : '/' ∉ p := hpl ▸ hlastc.2.1
        have hdone : goDir p = str "." := goDir_no_slash hnos
        have hskip : (if goDir p ≠ str "." ∧ goDir p ≠ [] then
            mkDirArgOne (goDir p) db else db) = db := by
          rw [if_neg]
          intro hcontra
          exact hcontra.1 hdone
        rw [hstep, hskip]
        refine ⟨hentries db, ?_⟩
        intro r hr
        exact absurd (splitsAt_no_slash hr hnos) (fun h => h)
      · subst hinit
        have hinitne : (i0 :: irest) ≠ ([] : List Str) := by simp
        have hinitclean : ∀ c ∈ i0 :: irest, cleanSeg c :=
          fun c hc => hclean c (List.mem_append_left _ hc)
        have hA : goDir p = joinSlash (i0 :: irest) := by
          rw [hp]
          exact goDir_concat hinitne hinitclean hlastc.2.1
        have hAne : joinSlash (i0 :: irest) ≠ [] :=
          joinSlash_ne_nil hinitne (fun c hc => (hinitclean c hc).1)
        have hAnd : joinSlash (i0 :: irest) ≠ str "." :=
          joinSlash_ne_dot hinitne hinitclean
        have hcond : (if goDir p ≠ str "." ∧ goDir p ≠ [] then
            mkDirArgOne (goDir p) db else db) =
            cmdFSMakeDir (joinSlash (i0 :: irest)) [] db := by
          rw [if_pos (by rw [hA]; exact ⟨hAnd, hAne⟩)]
          unfold mkDirArgOne
          have hng : ¬(goDir p = str "-h" ∨ goDir p = str "--help" ∨
              goDir p = str "help") := by
            rintro (hcon | hcon | hcon)
            · exact hg1 hcon
            · exact hg2 hcon
            · exact hg3 hcon
          rw [if_neg hng, hA]
        -- properties of the parent chain after the mkdir call
        have hedgeA : edgeOK (joinSlash (i0 :: irest)) :=
          edgeOK_joinSlash _ (fun c hc => ⟨(hinitclean c hc).1, (hinitclean c hc).2.1⟩)
        have hmkpaths : mkdirPaths (joinSlash (i0 :: irest)) =
            accPaths [] (i0 :: irest) := by
          unfold mkdirPaths
          rw [trimC_edgeOK hedgeA,
            splitC_joinSlash _ hinitne (fun c hc => (hinitclean c hc).2.1)]
        have hAmem : joinSlash (i0 :: irest) ∈ mkdirPaths (joinSlash (i0 :: irest)) := by
          rw [hmkpaths]
          have := joinSlash_mem_accPaths (i0 :: irest) [] hinitne
            (fun c hc => (hinitclean c hc).1)
          rwa [if_pos rfl] at this
        have hApres : (findEnt (joinSlash (i0 :: irest))
            (cmdFSMakeDir (joinSlash (i0 :: irest)) [] db)).isSome = true := by
          rw [cmdFSMakeDir_nometa]
          apply mkdirLoop_acc_present [] [] []
            (splitC '/' (trimC '/' (joinSlash (i0 :: irest)))) [] db
            (fun c hc => splitC_not_mem c hc) edgeOK_nil (joinSlash (i0 :: irest))
          unfold mkdirPaths at hAmem
          exact hAmem
        have hAclose : ∀ r, splitsAt r (joinSlash (i0 :: irest)) →
            (findEnt r (cmdFSMakeDir (joinSlash (i0 :: irest)) [] db)).isSome = true := by
          intro r hr
          rw [cmdFSMakeDir_nometa]
          apply mkdirLoop_closure [] [] []
            (splitC '/' (trimC '/' (joinSlash (i0 :: irest)))) [] db
            (fun c hc => splitC_not_mem c hc) edgeOK_nil (Or.inl rfl)
            (joinSlash (i0 :: irest)) ?_ r hr
          unfold mkdirPaths at hAmem
          exact hAmem
        have hpA : p = joinSlash (i0 :: irest) ++ '/' :: lastSeg := by
          rw [hp, joinSlash_concat hinitne]
        rw [hstep, hcond]
        refine ⟨hentries _, ?_⟩
        intro r hr
        obtain ⟨t, ht⟩ := hr
        rw [hpA] at ht
        rcases split_append_case _ r t lastSeg hlastc.2.1 ht with hra | hra
        · exact hmono _ r (hra ▸ hApres)
        · exact hmono _ r (hAclose r hra)

/-- Witness for C5: creating `a/b/f.txt` from an empty store leaves both
the file path and its strict prefix `a` present, and the directory walk of
`make_directory("a/b")` leaves the prefix `a` of the created path
present. -/
theorem C5_ancestor_amended_witness :
    ((findEnt (str "a/b/f.txt")
        (cmdFSNewFile (str "a/b/f.txt") [] (str "x") dbEmpty).2).isSome = true ∧
      (findEnt (str "a")
        (cmdFSNewFile (str "a/b/f.txt") [] (str "x") dbEmpty).2).isSome = true) ∧
    (findEnt (str "a")
      (cmdFSMakeDir (str "a/b") [] dbEmpty)).isSome = true := by
  have h2 := C5_ancestor_amended.2 [str "a", str "b", str "f.txt"]
    (str "a/b/f.txt") [] (str "x") dbEmpty (by decide) (by decide) (by decide)
    (by decide) (by decide) (by decide)
  have h1 := C5_ancestor_amended.1 (str "a/b") [] dbEmpty (str "a/b") (by decide)
  exact ⟨⟨h2.1, h2.2 (str "a") ⟨str "b/f.txt", by decide⟩⟩,
    h1.2 (str "a") ⟨str "b", by decide⟩⟩

/-- C6: round-trip content.  On any store and any fresh slash-free file
path, `new_file(p, content="x")` succeeds, a subsequent `read` returns
exactly the one line `x`, a subsequent `append(p, "y")` succeeds (the
appended line gets number `max existing + 1 = 2`), and `read` then returns
exactly `["x","y"]` in ascending line order. -/
theorem C6_round_trip (db : DB) (p : Str) (h2 : '/' ∉ p)
    (h3 : ∀ e ∈ db.entries, e.path ≠ p) (h4 : ∀ l ∈ db.lines, l.fileId ≠ db.nextId) :
    (cmdFSNewFile p [] (str "x") db).1 = none ∧
    cmdFSCat p (cmdFSNewFile p [] (str "x") db).2 = Except.ok [str "x"] ∧
    (cmdFSAppend p (str "y") (cmdFSNewFile p [] (str "x") db).2).1 = none ∧
    cmdFSCat p (cmdFSAppend p (str "y") (cmdFSNewFile p [] (str "x") db).2).2 =
      Except.ok [str "x", str "y"] := by
  have htrim : trimC '/' p = p := trimC_self h2
  have hnone : findEnt p db = none := findEnt_eq_none_iff.2 h3
  have hstep : cmdFSNewFile p [] (str "x") db =
      (none, { db with
        entries := db.entries ++ [⟨db.nextId, p, goBase p, EKind.file, some [], some []⟩],
        lines := db.lines ++ [⟨db.nextId, 1, str "x", none, none⟩],
        nextId := db.nextId + 1 }) := by
    have hd : goDir p = str "." := goDir_no_slash h2
    show upsertFile p (goBase p) [] [] [] (str "x")
      (if goDir p ≠ str "." ∧ goDir p ≠ [] then mkDirArgOne (goDir p) db else db) = _
    rw [if_neg (fun hcon => hcon.1 hd)]
    simp only [upsertFile]
    rw [htrim, List.foldl_nil]
    unfold insIgnoreEntry
    rw [hnone]
    simp only [Option.isSome_none, Bool.false_eq_true, if_false]
    rw [if_pos (by decide : (str "x") ≠ [])]
    have hfind : findEnt p { db with
        entries := db.entries ++ [⟨db.nextId, p, goBase p, EKind.file, some [], some []⟩],
        nextId := db.nextId + 1 } =
        some ⟨db.nextId, p, goBase p, EKind.file, some [], some []⟩ := by
      unfold findEnt
      rw [List.find?_append]
      have hfe : db.entries.find? (fun e => decide (e.path = p)) = none := by
        rw [List.find?_eq_none]
        intro e he
        simpa using h3 e he
      rw [hfe]
      simp
    have hany : (db.lines.any fun l => decide (l.fileId = db.nextId ∧ l.lineno = 1)) =
        false := by
      rw [List.any_eq_false]
      intro l hl
      simp only [decide_eq_true_eq, not_and]
      intro hid
      exact absurd hid (h4 l hl)
    simp only [hfind, hany, Bool.false_eq_true, if_false]
  have hgid : getFileID p (cmdFSNewFile p [] (str "x") db).2 =
      Except.ok db.nextId := by
    rw [hstep]
    unfold getFileID
    rw [List.find?_append]
    have hfe : db.entries.find? (fun e => decide (e.path = p ∧ e.kind = EKind.file)) =
        none := by
      rw [List.find?_eq_none]
      intro e he
      simp only [decide_eq_true_eq, not_and]
      intro hp2
      exact absurd hp2 (h3 e he)
    rw [hfe]
    simp
  have hfil : ((cmdFSNewFile p [] (str "x") db).2.lines.filter
      (fun l => decide (l.fileId = db.nextId))) =
      [⟨db.nextId, 1, str "x", none, none⟩] := by
    rw [hstep]
    show (db.lines ++ ([⟨db.nextId, 1, str "x", none, none⟩] : List LineRow)).filter
      (fun l => decide (l.fileId = db.nextId)) = _
    rw [List.filter_append]
    have hf0 : db.lines.filter (fun l => decide (l.fileId = db.nextId)) = [] := by
      rw [List.filter_eq_nil_iff]
      intro l hl
      simpa using h4 l hl
    rw [hf0]
    simp
  refine ⟨by rw [hstep], ?_, ?_, ?_⟩
  · simp only [cmdFSCat]
    rw [htrim]
    simp only [hgid]
    rw [hfil]
    rfl
  · simp only [cmdFSAppend]
    rw [htrim, if_neg (by decide : ¬(str "y") = [])]
    simp only [hgid]
  · have happ : cmdFSAppend p (str "y") (cmdFSNewFile p [] (str "x") db).2 =
        (none, { (cmdFSNewFile p [] (str "x") db).2 with
          lines := (cmdFSNewFile p [] (str "x") db).2.lines ++
            [⟨db.nextId, 2, str "y", none, none⟩] }) := by
      simp only [cmdFSAppend]
      rw [htrim, if_neg (by decide : ¬(str "y") = [])]
      simp only [hgid]
      have hmax : maxLn db.nextId (cmdFSNewFile p [] (str "x") db).2.lines = 1 := by
        unfold maxLn
        rw [hfil]
        rfl
      rw [hmax]
    rw [happ]
    simp only [cmdFSCat]
    rw [htrim]
    have hgid2 : getFileID p ({ (cmdFSNewFile p [] (str "x") db).2 with
        lines := (cmdFSNewFile p [] (str "x") db).2.lines ++
          [⟨db.nextId, 2, str "y", none, none⟩] } : DB) = Except.ok db.nextId := by
      have hsame : ({ (cmdFSNewFile p [] (str "x") db).2 with
          lines := (cmdFSNewFile p [] (str "x") db).2.lines ++
            [⟨db.nextId, 2, str "y", none, none⟩] } : DB).entries =
          (cmdFSNewFile p [] (str "x") db).2.entries := rfl
      unfold getFileID
      unfold getFileID at hgid
      rw [hsame]
      exact hgid
    simp only [hgid2]
    have hfil2 : ({ (cmdFSNewFile p [] (str "x") db).2 with
        lines := (cmdFSNewFile p [] (str "x") db).2.lines ++
          [⟨db.nextId, 2, str "y", none, none⟩] } : DB).lines.filter
        (fun l => decide (l.fileId = db.nextId)) =
        [⟨db.nextId, 1, str "x", none, none⟩, ⟨db.nextId, 2, str "y", none, none⟩] := by
      show ((cmdFSNewFile p [] (str "x") db).2.lines ++
        ([⟨db.nextId, 2, str "y", none, none⟩] : List LineRow)).filter
        (fun l => decide (l.fileId = db.nextId)) = _
      rw [List.filter_append, hfil]
      simp
    rw [hfil2]
    rfl

/-- Witness for C6 at the concrete fresh path `f.txt` on the empty store. -/
theorem C6_round_trip_witness :
    cmdFSCat (str "f.txt")
      (cmdFSAppend (str "f.txt") (str "y")
        (cmdFSNewFile (str "f.txt") [] (str "x") dbEmpty).2).2 =
      Except.ok [str "x", str "y"] :=
  (C6_round_trip dbEmpty (str "f.txt") (by decide) (by decide) (by decide)).2.2.2

/-- C7: the annotation parser agrees on every raw metadata string with the
specification-side reading `parseMetaSpec` — the three markers are checked
in priority order (side note `//` taking the trimmed rest, tag list `@@`
taking the comma-separated trimmed labels with empties dropped, control
channel `::` taking the trimmed text up to the last closing `::` or the
rest when none closes), each recognized only at the start of the trimmed
string — and at most one marker is honored per call: at least two of the
three result components are always empty. -/
theorem C7_parseMeta_spec : ∀ s : Str,
    parseMeta s = parseMetaSpec s ∧
    (((parseMeta s).1 = [] ∧ (parseMeta s).2.1 = []) ∨
     ((parseMeta s).1 = [] ∧ (parseMeta s).2.2 = []) ∨
     ((parseMeta s).2.1 = [] ∧ (parseMeta s).2.2 = [])) := by
  intro s
  constructor
  · unfold parseMeta parseMetaSpec
    rcases hs : trimSp s with _ | ⟨a, t⟩
    · rfl
    · rcases t with _ | ⟨b, t2⟩
      · simp [str, startsW]
      · by_cases ha : ('/' : Char) = a
        · subst ha
          by_cases hb : ('/' : Char) = b
          · subst hb
            simp [str, startsW, dropPre]
          · simp [str, startsW, dropPre, hb]
            split <;> simp_all
        · by_cases ha2 : ('@' : Char) = a
          · subst ha2
            by_cases hb : ('@' : Char) = b
            · subst hb
              simp [str, startsW, dropPre]
            · simp [str, startsW, dropPre, ha, hb]
              split <;> simp_all
          · by_cases ha3 : (':' : Char) = a
            · subst ha3
              by_cases hb : (':' : Char) = b
              · subst hb
                simp [str, startsW, dropPre]
              · simp [str, startsW, dropPre, ha, ha2, hb]
                split <;> simp_all
            · simp [str, startsW, dropPre, ha, ha2, ha3]
              split <;> simp_all
  · simp only [parseMeta]
    split
    · simp
    · split
      · simp
      · split
        · simp
        · split
          · simp
          · simp

/-- C8 (amended): `annotate` requires a line number: with the line omitted
the command prints usage and changes nothing (in particular it does not set
the file-level note).  With a line number `n` on an existing file, the
command succeeds, the `files` rows — including the file-level note — are
left completely unchanged, every line row other than `(fid, n)` is kept
verbatim, a row at `(fid, n)` exists afterwards carrying the parsed note in
its side column when a note was given, and the parsed tags are attached at
the entry level (rows of `file_tags` keyed by the file id). -/
theorem C8_annotate_amended :
    (∀ (p meta : Str) (db : DB), cmdFSAnnotate p none meta db = (none, db)) ∧
    (∀ (p meta : Str) (n : Nat) (db : DB) (fid : Nat),
      getFileID (trimC '/' p) db = Except.ok fid →
      (cmdFSAnnotate p (some n) meta db).1 = none ∧
      (cmdFSAnnotate p (some n) meta db).2.entries = db.entries ∧
      (∀ l ∈ db.lines, ¬(l.fileId = fid ∧ l.lineno = n) →
        l ∈ (cmdFSAnnotate p (some n) meta db).2.lines) ∧
      ((parseMeta meta).2.1 ≠ [] →
        ∃ l ∈ (cmdFSAnnotate p (some n) meta db).2.lines,
          l.fileId = fid ∧ l.lineno = n ∧ l.side = some (parseMeta meta).2.1) ∧
      (cmdFSAnnotate p (some n) meta db).2.tags =
        db.tags ++ (parseMeta meta).1.map (fun t => ⟨fid, t⟩)) := by
  constructor
  · intro p meta db
    unfold cmdFSAnnotate
    split
    · rfl
    · rfl
  · intro p meta n db fid hfid
    by_cases hm : meta = ([] : Str)
    · subst hm
      have hres : cmdFSAnnotate p (some n) [] db = (none, db) := by
        unfold cmdFSAnnotate
        rw [if_pos rfl]
      rw [hres]
      refine ⟨rfl, rfl, fun l hl _ => hl, ?_, ?_⟩
      · intro hnote
        exact absurd rfl hnote
      · rw [parseMeta_nil]
        simp
    · by_cases h1 : (parseMeta meta).2.1 ≠ ([] : Str) ∨ (parseMeta meta).2.2 ≠ ([] : Str)
      · by_cases h2 : (db.lines.any fun l => decide (l.fileId = fid ∧ l.lineno = n)) = true
        · simp only [cmdFSAnnotate, if_neg hm, hfid, h1, h2, if_true]
          refine ⟨trivial, trivial, ?_, ?_, trivial⟩
          · intro l hl hln
            exact List.mem_map.2 ⟨l, hl, by rw [if_neg hln]⟩
          · intro hnote
            rcases List.any_eq_true.1 h2 with ⟨r, hr, hrp⟩
            have hrp2 : r.fileId = fid ∧ r.lineno = n := by simpa using hrp
            refine ⟨{ r with
              side := some (parseMeta meta).2.1,
              aicom := if (parseMeta meta).2.2 ≠ [] then some (parseMeta meta).2.2
                else r.aicom }, ?_, hrp2.1, hrp2.2, rfl⟩
            refine List.mem_map.2 ⟨r, hr, ?_⟩
            rw [if_pos hrp2, if_pos hnote]
        · simp only [cmdFSAnnotate, if_neg hm, hfid, h1, h2, if_true, if_false,
            Bool.false_eq_true]
          refine ⟨trivial, trivial, ?_, ?_, trivial⟩
          · intro l hl hln
            exact List.mem_map.2 ⟨l, List.mem_append_left _ hl, by rw [if_neg hln]⟩
          · intro hnote
            refine ⟨⟨fid, n, [],
              some (parseMeta meta).2.1,
              if (parseMeta meta).2.2 ≠ [] then some (parseMeta meta).2.2 else none⟩,
              ?_, rfl, rfl, rfl⟩
            refine List.mem_map.2 ⟨⟨fid, n, [], none, none⟩, by simp, ?_⟩
            rw [if_pos ⟨rfl, rfl⟩, if_pos hnote]
      · by_cases h2 : (db.lines.any fun l => decide (l.fileId = fid ∧ l.lineno = n)) = true
        · simp only [cmdFSAnnotate, if_neg hm, hfid, h1, h2, if_true, if_false]
          refine ⟨trivial, trivial, fun l hl _ => hl, ?_, trivial⟩
          intro hnote
          exact absurd hnote (not_or.1 h1).1
        · simp only [cmdFSAnnotate, if_neg hm, hfid, h1, h2, if_false, Bool.false_eq_true]
          refine ⟨trivial, trivial, fun l hl _ => List.mem_append_left _ hl, ?_, trivial⟩
          intro hnote
          exact absurd hnote (not_or.1 h1).1

/-- Witness for C8 on a concrete file with one content line: annotating
line 2 with a note and a tag succeeds and leaves the `files` rows
unchanged. -/
theorem C8_annotate_amended_witness :
    (cmdFSAnnotate (str "f") (some 2) (str "// n")
      (cmdFSNewFile (str "f") [] (str "x") dbEmpty).2).1 = none ∧
    (cmdFSAnnotate (str "f") (some 2) (str "// n")
      (cmdFSNewFile (str "f") [] (str "x") dbEmpty).2).2.entries =
      (cmdFSNewFile (str "f") [] (str "x") dbEmpty).2.entries := by
  have h := C8_annotate_amended.2 (str "f") (str "// n") 2
    (cmdFSNewFile (str "f") [] (str "x") dbEmpty).2 1 (by rfl)
  exact ⟨h.1, h.2.1⟩

/-- C9 (amended): non-recursive `remove` on a directory-kind entry fails
with the is-a-directory error and leaves the whole database unchanged
(entries, lines and tags).  Recursive `remove` succeeds and deletes exactly
the matched entries together with all of their lines and tags; the match is
the SQL predicate `path='t' OR path LIKE 't/%'`, which for a target and
stored paths free of `LIKE`-active characters (wildcards `%`/`_`, upper
case ASCII) is exactly "path equals the target or starts with target plus
slash", as the claim states — a target containing `_` or `%` also deletes
sibling entries matched by the wildcard (see the counterexample). -/
theorem C9_remove_amended :
    (∀ (p : Str) (db : DB) (e : Entry),
      findEnt (trimC '/' p) db = some e → e.kind = EKind.dir →
      cmdFSRemove false p db = (some Err.isDirErr, db)) ∧
    (∀ (p : Str) (db : DB) (e : Entry),
      findEnt (trimC '/' p) db = some e → e.kind = EKind.dir →
      likeSafe (trimC '/' p) → (∀ x ∈ db.entries, likeSafe x.path) →
      (cmdFSRemove true p db).1 = none ∧
      (cmdFSRemove true p db).2.entries = db.entries.filter
        (fun x => !(decide (x.path = trimC '/' p) ||
          startsW (trimC '/' p ++ str "/") x.path)) ∧
      (cmdFSRemove true p db).2.lines = db.lines.filter
        (fun l => decide (l.fileId ∉ (db.entries.filter
          (fun x => decide (x.path = trimC '/' p) ||
            startsW (trimC '/' p ++ str "/") x.path)).map Entry.id)) ∧
      (cmdFSRemove true p db).2.tags = db.tags.filter
        (fun t => decide (t.fileId ∉ (db.entries.filter
          (fun x => decide (x.path = trimC '/' p) ||
            startsW (trimC '/' p ++ str "/") x.path)).map Entry.id))) := by
  constructor
  · intro p db e hfind hkind
    unfold cmdFSRemove
    simp only [hfind]
    rw [if_pos ⟨hkind, trivial⟩]
  · intro p db e hfind hkind hsafe hall
    have hsub : ∀ x ∈ db.entries,
        subMatch (trimC '/' p) x.path =
          (decide (x.path = trimC '/' p) ||
            startsW (trimC '/' p ++ str "/") x.path) :=
      fun x hx => subMatch_eq_of_safe hsafe (hall x hx)
    have hids : (db.entries.filter (fun x => subMatch (trimC '/' p) x.path)).map
        Entry.id =
        (db.entries.filter (fun x => decide (x.path = trimC '/' p) ||
          startsW (trimC '/' p ++ str "/") x.path)).map Entry.id := by
      rw [List.filter_congr hsub]
    unfold cmdFSRemove
    simp only [hfind]
    rw [if_neg (by simp), if_neg (by simp [hkind])]
    refine ⟨rfl, ?_, ?_, ?_⟩
    · exact List.filter_congr (fun x hx => by rw [hsub x hx])
    · rw [hids]
    · rw [hids]

/-- Witness for C9 on the store holding directories `a` and `a/b`. -/
theorem C9_remove_amended_witness :
    cmdFSRemove false (str "a") (cmdFSMakeDir (str "a/b") [] dbEmpty) =
      (some Err.isDirErr, cmdFSMakeDir (str "a/b") [] dbEmpty) ∧
    (cmdFSRemove true (str "a") (cmdFSMakeDir (str "a/b") [] dbEmpty)).1 = none := by
  have hfind : findEnt (trimC '/' (str "a")) (cmdFSMakeDir (str "a/b") [] dbEmpty) =
      some ⟨1, str "a", str "a", EKind.dir, none, none⟩ := by rfl
  exact ⟨C9_remove_amended.1 (str "a") _ _ hfind rfl,
    (C9_remove_amended.2 (str "a") _ _ hfind rfl (by decide) (by decide)).1⟩

/-- C10 (amended): the shared lookup `getFileID` of the line-oriented
commands is restricted to `type='file'` rows, so on a path holding a
directory-kind entry or no entry at all, `append` (with nonempty text),
`annotate` (with a line number and metadata) and `cat` fail with the
file-not-found error and leave the database unchanged.  The claimed
consequence — that line rows only ever belong to file-kind entries — fails
nevertheless, because the initial-content insert of `upsertFile` does not
repeat the kind restriction (see the counterexample). -/
theorem C10_line_ops_amended :
    ∀ (p t meta : Str) (n : Nat) (db : DB),
      (∀ e ∈ db.entries, e.path = trimC '/' p → e.kind = EKind.dir) →
      t ≠ [] → meta ≠ [] →
      cmdFSAppend p t db = (some Err.fileNotFound, db) ∧
      cmdFSAnnotate p (some n) meta db = (some Err.fileNotFound, db) ∧
      cmdFSCat p db = Except.error Err.fileNotFound := by
  intro p t meta n db hdir ht hm
  have hgid : getFileID (trimC '/' p) db = Except.error Err.fileNotFound := by
    unfold getFileID
    have hfe : db.entries.find?
        (fun e => decide (e.path = trimC '/' p ∧ e.kind = EKind.file)) = none := by
      rw [List.find?_eq_none]
      intro e he
      simp only [decide_eq_true_eq, not_and]
      intro hp2 hk
      have hd := hdir e he hp2
      rw [hk] at hd
      exact EKind.noConfusion hd
    rw [hfe]
  refine ⟨?_, ?_, ?_⟩
  · simp only [cmdFSAppend]
    rw [if_neg ht]
    simp [hgid]
  · simp only [cmdFSAnnotate]
    rw [if_neg hm]
    simp [hgid]
  · simp only [cmdFSCat]
    simp [hgid]

/-- Witness for C10 on the store holding only the directory `a`. -/
theorem C10_line_ops_amended_witness :
    cmdFSAppend (str "a") (str "t") (cmdFSMakeDir (str "a") [] dbEmpty) =
      (some Err.fileNotFound, cmdFSMakeDir (str "a") [] dbEmpty) ∧
    cmdFSCat (str "a") (cmdFSMakeDir (str "a") [] dbEmpty) =
      Except.error Err.fileNotFound := by
  have h := C10_line_ops_amended (str "a") (str "t") (str "// x") 1
    (cmdFSMakeDir (str "a") [] dbEmpty) (by decide) (by decide) (by decide)
  exact ⟨h.1, h.2.2⟩

theorem mkdirLoop_mem :
    ∀ (comps : List Str) (cur : Str) (db : DB) (e : Entry), e ∈ db.entries →
      e ∈ (mkdirLoop [] [] [] comps cur db).entries := by
  intro comps
  induction comps with
  | nil =>
    intro cur db e he
    rw [mkdirLoop]
    exact he
  | cons c rest ih =>
    intro cur db e he
    rw [mkdirLoop]
    by_cases hc : c = ([] : Str)
    · rw [if_pos hc]
      exact ih cur db e he
    · rw [if_neg hc]
      refine ih _ _ e ?_
      rw [upsertDir_nometa]
      exact mem_insIgnore he _ _ _ _ _

/-- C2 (amended): no `TypeConflict` error exists in the engine.
Metadata-free `make_directory` never fails and keeps every existing `files`
row verbatim, so an existing file-kind entry at any component keeps its
kind; when every component path already exists the call leaves the store
entirely unchanged.  Metadata- and content-free `new_file` on an existing
slash-free path is a complete no-op reporting success, whatever the kind of
the entry occupying the path (the `INSERT OR IGNORE` swallows the
conflict). -/
theorem C2_no_type_error :
    (∀ (p : Str) (db : DB) (e : Entry), e ∈ db.entries →
      e ∈ (cmdFSMakeDir p [] db).entries) ∧
    (∀ (p : Str) (db : DB),
      (∀ q ∈ mkdirPaths p, (findEnt q db).isSome = true) →
      cmdFSMakeDir p [] db = db) ∧
    (∀ (p : Str) (db : DB), '/' ∉ p → (findEnt p db).isSome = true →
      cmdFSNewFile p [] [] db = (none, db)) := by
  refine ⟨?_, ?_, ?_⟩
  · intro p db e he
    rw [cmdFSMakeDir_nometa]
    exact mkdirLoop_mem _ [] db e he
  · intro p db hpres
    rw [cmdFSMakeDir_nometa]
    apply mkdirLoop_noop
    · exact fun c hc => splitC_not_mem c hc
    · exact edgeOK_nil
    · intro q hq
      apply hpres
      unfold mkdirPaths
      exact hq
  · intro p db hslash hpres
    have hd : goDir p = str "." := goDir_no_slash hslash
    have hstep : cmdFSNewFile p [] [] db = upsertFile p (goBase p) [] [] [] [] db := by
      show upsertFile p (goBase p) [] [] [] []
        (if goDir p ≠ str "." ∧ goDir p ≠ [] then mkDirArgOne (goDir p) db else db) = _
      rw [if_neg (fun hcon => hcon.1 hd)]
    rw [hstep]
    simp only [upsertFile]
    rw [trimC_self hslash, List.foldl_nil,
      insIgnore_present_noop hpres (goBase p) EKind.file (some []) (some []),
      if_neg (by simp)]

/-- Witness for C2: `new_file("a")` over the directory `a` and
`make_directory("b")` over the file `b` both report success and leave the
store unchanged. -/
theorem C2_no_type_error_witness :
    cmdFSNewFile (str "a") [] [] (cmdFSMakeDir (str "a") [] dbEmpty) =
      (none, cmdFSMakeDir (str "a") [] dbEmpty) ∧
    cmdFSMakeDir (str "b") [] (cmdFSNewFile (str "b") [] [] dbEmpty).2 =
      (cmdFSNewFile (str "b") [] [] dbEmpty).2 := by
  exact ⟨C2_no_type_error.2.2 (str "a") (cmdFSMakeDir (str "a") [] dbEmpty)
      (by decide) (by decide),
    C2_no_type_error.2.1 (str "b") (cmdFSNewFile (str "b") [] [] dbEmpty).2
      (by decide)⟩

/-! Lemmas for the directory branch of `cmdFSMove`. -/

theorem insByLen_perm (y : Nat × Str) :
    ∀ l : List (Nat × Str), List.Perm (insByLen y l) (y :: l) := by
  intro l
  induction l with
  | nil => exact List.Perm.refl _
  | cons z zs ih =>
    rw [insByLen]
    by_cases h : y.2.length ≤ z.2.length
    · rw [if_pos h]
    · rw [if_neg h]
      exact (List.Perm.cons z ih).trans (List.Perm.swap y z zs)

theorem sortLen_perm : ∀ l : List (Nat × Str), List.Perm (sortLen l) l := by
  intro l
  induction l with
  | nil => exact List.Perm.refl _
  | cons z zs ih =>
    show List.Perm (insByLen z (sortLen zs)) (z :: zs)
    exact (insByLen_perm z (sortLen zs)).trans (List.Perm.cons z ih)

/-- The snapshot's rowids are pairwise distinct when the table's are: the
sort is a permutation of a projection of a filtered sublist. -/
theorem snapIds_nodup {db : DB} (hN : (db.entries.map Entry.id).Nodup) (src : Str) :
    ((sortLen ((db.entries.filter (fun x => subMatch src x.path)).map
      (fun x => (x.id, x.path)))).map Prod.fst).Nodup := by
  rw [((sortLen_perm _).map Prod.fst).nodup_iff, List.map_map]
  have hfun : (Prod.fst ∘ fun x : Entry => (x.id, x.path)) = Entry.id := by
    funext x
    rfl
  rw [hfun]
  exact List.Nodup.sublist
    ((List.filter_sublist db.entries).map Entry.id) hN

/-- Every entry at the source path or strictly below it contributes its
row to the snapshot the directory branch of `cmdFSMove` iterates over. -/
theorem snap_mem {db : DB} {src : Str} {e : Entry} (he : e ∈ db.entries)
    (h : e.path = src ∨ startsW (src ++ str "/") e.path = true) :
    (e.id, e.path) ∈ sortLen ((db.entries.filter (fun x => subMatch src x.path)).map
      (fun x => (x.id, x.path))) := by
  rw [(sortLen_perm _).mem_iff]
  refine List.mem_map_of_mem _ (List.mem_filter.2 ⟨he, ?_⟩)
  rcases h with h | h
  · simp [subMatch, h]
  · exact subMatch_of_startsW h

/-- An entry whose rowid is touched by none of the remaining snapshot rows
survives a successful rest of the update loop verbatim. -/
theorem moveLoop_keeps :
    ∀ (src dst : Str) (lst : List (Nat × Str)) (db db2 : DB),
      moveLoop src dst lst db = (none, db2) →
      ∀ e ∈ db.entries, (∀ pr ∈ lst, pr.1 ≠ e.id) → e ∈ db2.entries := by
  intro src dst lst
  induction lst with
  | nil =>
    intro db db2 h e he _
    rw [moveLoop] at h
    injection h with h1 h2
    exact h2 ▸ he
  | cons pr0 rest ih =>
    obtain ⟨i, op⟩ := pr0
    intro db db2 h e he hni
    simp only [moveLoop] at h
    by_cases hcol :
        (db.entries.any (fun x => decide (x.path = mvNew src dst op ∧ x.id ≠ i))) = true
    · rw [if_pos hcol] at h
      exact absurd (congrArg Prod.fst h) (by simp)
    · rw [if_neg hcol] at h
      refine ih _ db2 h e ?_ (fun pr hpr => hni pr (List.mem_cons_of_mem _ hpr))
      have hei : i ≠ e.id := hni (i, op) (List.mem_cons_self _ _)
      exact List.mem_map.2 ⟨e, he, if_neg (fun hc => hei hc.symm)⟩

/-- Success postcondition of the update loop: each snapshot row whose id
names an entry of the pre-loop state ends up renamed to its `mvNew` path
with the leaf name recomputed, the id untouched. -/
theorem moveLoop_renames :
    ∀ (src dst : Str) (lst : List (Nat × Str)) (db db2 : DB),
      moveLoop src dst lst db = (none, db2) →
      (lst.map Prod.fst).Nodup →
      ∀ pr ∈ lst, (∃ e ∈ db.entries, e.id = pr.1) →
        ∃ e2 ∈ db2.entries, e2.id = pr.1 ∧ e2.path = mvNew src dst pr.2 ∧
          e2.name = goBase (mvNew src dst pr.2) := by
  intro src dst lst
  induction lst with
  | nil =>
    intro db db2 _ _ pr hpr
    exact absurd hpr (List.not_mem_nil pr)
  | cons pr0 rest ih =>
    obtain ⟨i, op⟩ := pr0
    intro db db2 h hnd pr hpr hex
    simp only [moveLoop] at h
    by_cases hcol :
        (db.entries.any (fun x => decide (x.path = mvNew src dst op ∧ x.id ≠ i))) = true
    · rw [if_pos hcol] at h
      exact absurd (congrArg Prod.fst h) (by simp)
    · rw [if_neg hcol] at h
      rw [List.map_cons, List.nodup_cons] at hnd
      have hni : i ∉ List.map Prod.fst rest := hnd.1
      rcases List.mem_cons.1 hpr with hpr0 | hprR
      · subst hpr0
        obtain ⟨e, he, hei⟩ := hex
        have himg : (⟨e.id, mvNew src dst op, goBase (mvNew src dst op),
            e.kind, e.note, e.aicom⟩ : Entry) ∈
            db.entries.map (fun x : Entry => if x.id = i then
              ⟨x.id, mvNew src dst op, goBase (mvNew src dst op),
                x.kind, x.note, x.aicom⟩
              else x) :=
          List.mem_map.2 ⟨e, he, if_pos hei⟩
        refine ⟨_, moveLoop_keeps src dst rest _ db2 h _ himg ?_, hei, rfl, rfl⟩
        intro pr' hpr' hcon
        have hm : pr'.1 ∈ List.map Prod.fst rest := List.mem_map_of_mem Prod.fst hpr'
        rw [hcon, hei] at hm
        exact hni hm
      · refine ih _ db2 h hnd.2 pr hprR ?_
        obtain ⟨e, he, hei⟩ := hex
        refine ⟨_, List.mem_map.2 ⟨e, he, rfl⟩, ?_⟩
        show (if e.id = i then
          { e with path := mvNew src dst op, name := goBase (mvNew src dst op) }
          else e).id = pr.1
        by_cases hx : e.id = i
        · rw [if_pos hx]
          exact hei
        · rw [if_neg hx]
          exact hei

theorem mvNew_self (src dst : Str) : mvNew src dst src = dst := by
  unfold mvNew
  rw [if_pos rfl]

/-- `mvNew` on a strict descendant `src ++ "/" ++ tl`: the trimmed
remainder `tl` is glued under the destination. -/
theorem mvNew_sub (src dst tl : Str) :
    mvNew src dst (src ++ '/' :: tl) = if tl = [] then dst else dst ++ '/' :: tl := by
  have hne : ¬(src ++ '/' :: tl = src) := by
    intro hc
    have hlen := congrArg List.length hc
    simp at hlen
  have h1 : startsW (str "/") ('/' :: tl) = true := by
    show startsW ['/'] ('/' :: tl) = true
    simp [startsW]
  simp only [mvNew]
  rw [if_neg hne, dropPre_append, if_pos h1]
  simp

/-- C1 (amended): when `move(src, dst)` on a directory-kind source SUCCEEDS,
every entry whose path equals `src` or starts with `src ++ "/"` is renamed —
the source itself to `dst`, a strict descendant `src ++ "/" ++ tl` to
`dst ++ "/" ++ tl` — with its leaf name recomputed by `filepath.Base` and
its rowid unchanged.  The atomicity half of the original claim is false
(`C1_move_not_atomic_cex`): each row update commits in its own `sqlite3`
process, so a mid-loop `UNIQUE` failure leaves the earlier renames in
place. -/
theorem C1_move_renames (src dst : Str) (db db2 : DB) (e0 : Entry)
    (hs : trimC '/' src = src) (hd : trimC '/' dst = dst)
    (hfind : findEnt src db = some e0) (hkind : e0.kind = EKind.dir)
    (hN : (db.entries.map Entry.id).Nodup)
    (hrun : cmdFSMove src dst db = (none, db2)) :
    ∀ e ∈ db.entries, e.path = src ∨ startsW (src ++ str "/") e.path = true →
      ∃ e2 ∈ db2.entries, e2.id = e.id ∧
        e2.path = mvNew src dst e.path ∧
        e2.name = goBase (mvNew src dst e.path) ∧
        (e.path = src → e2.path = dst) ∧
        ∀ tl, e.path = src ++ '/' :: tl →
          e2.path = (if tl = [] then dst else dst ++ '/' :: tl) := by
  intro e he hmatch
  simp only [cmdFSMove, hs, hd, hfind] at hrun
  rw [if_neg (by simp [hkind])] at hrun
  obtain ⟨e2, hmem, hid, hpath, hname⟩ :=
    moveLoop_renames src dst _ db db2 hrun (snapIds_nodup hN src)
      (e.id, e.path) (snap_mem he hmatch) ⟨e, he, rfl⟩
  refine ⟨e2, hmem, hid, hpath, hname, ?_, ?_⟩
  · intro hsrc
    rw [hpath]
    show mvNew src dst e.path = dst
    rw [hsrc, mvNew_self]
  · intro tl htl
    rw [hpath]
    show mvNew src dst e.path = _
    rw [htl, mvNew_sub]

/-- Witness for C1 on the concrete state `exC1mv` (tree `a`, `a/y`,
`a/y/z`, file `a/x`): `move("a","b")` succeeds and the file entry keeps
rowid 4 while its path becomes `b/x`. -/
theorem C1_move_renames_witness :
    ∃ e2 ∈ (cmdFSMove (str "a") (str "b") exC1mv).2.entries,
      e2.id = 4 ∧
      e2.path = mvNew (str "a") (str "b") (str "a/x") ∧
      e2.name = goBase (mvNew (str "a") (str "b") (str "a/x")) ∧
      (str "a/x" = str "a" → e2.path = str "b") ∧
      ∀ tl, str "a/x" = str "a" ++ '/' :: tl →
        e2.path = (if tl = [] then str "b" else str "b" ++ '/' :: tl) :=
  C1_move_renames (str "a") (str "b") exC1mv (cmdFSMove (str "a") (str "b") exC1mv).2
    ⟨1, str "a", str "a", EKind.dir, none, none⟩
    (by decide) (by decide) (by decide) rfl (by decide) (by decide)
    ⟨4, str "a/x", str "x", EKind.file, some [], some []⟩ (by decide) (by decide)

end Heimdal
